import Mathlib

/-!
# The udev watch registry (`udev/udev-watch.c`)

A shallow embedding of `udev_watch_restore`, `udev_watch_filename`,
`udev_watch_begin`, `udev_watch_clear`, `udev_watch_end` and
`udev_watch_lookup`, together with a small model of what they call into:
the bounded string helpers, `sprintf "%d"`, `atoi`, the two directories
`<dev_path>/.udev/watch` and `<dev_path>/.udev/watch.old`, the inotify watch
table and the sysfs device lookup.

C strings are Lean strings, one `Char` for one C `char`.  The size of the
path buffers, `UTIL_PATH_SIZE`, is defined in a header that is not part of
the source file; it is a parameter of every function that owns such a buffer.
-/

namespace UdevWatch

/-! ## Strings -/

/-- Modelled from the spec: `util_strlcpy` is one of the path-string utilities
the spec lists as external collaborators; it is declared in `udev.h` and its
body is not in the source file.  `util_strlcpy(dst, src, size)` fills a
buffer of `size` bytes: at most `size - 1` characters of `src` are kept and
the rest is cut off.  The result is the new content of `dst`. -/
def util_strlcpy (src : String) (size : Nat) : String :=
  ⟨src.data.take (size - 1)⟩

/-- Modelled from the spec: `util_strlcat` is the second path-string utility,
absent from the source file like `util_strlcpy`.
`util_strlcat(dst, src, size)` appends to the string already in the buffer
as many characters of `src` as still fit in `size` bytes (one byte is the
terminator); a buffer that is already full is left alone.  The result is the
new content of `dst`. -/
def util_strlcat (dst src : String) (size : Nat) : String :=
  if size ≤ dst.length then dst
  else ⟨dst.data ++ src.data.take (size - 1 - dst.length)⟩

/-- The decimal digits of `n`, most significant first; `fuel` bounds the
number of digits produced and `n + 1` is always enough. -/
def decimal_digits : Nat → Nat → List Char → List Char
  | 0, _, acc => acc
  | fuel + 1, n, acc =>
    let acc1 := Char.ofNat (48 + n % 10) :: acc
    if n / 10 = 0 then acc1 else decimal_digits fuel (n / 10) acc1

/-- The string `sprintf(str, "%d", wd)` writes. -/
def sprintf_d (wd : Int) : String :=
  match wd with
  | Int.ofNat n => ⟨decimal_digits (n + 1) n []⟩
  | Int.negSucc n => ⟨'-' :: decimal_digits (n + 2) (n + 1) []⟩

/-- The C library test `isdigit`; the source writes it out as
`c < '0' || c > '9'` negated. -/
def isdigit (c : Char) : Bool :=
  decide ('0' ≤ c) && decide (c ≤ '9')

/-- The C library test `isspace`. -/
def isspace (c : Char) : Bool :=
  c == ' ' || c == '\t' || c == '\n' || c == '\x0b' || c == '\x0c' || c == '\r'

/-- The digit-reading loop of `atoi`: reads decimal digits until the first
character that is not one. -/
def atoi_digits : Nat → List Char → Nat
  | acc, [] => acc
  | acc, c :: cs =>
    if isdigit c then atoi_digits (acc * 10 + (c.toNat - 48)) cs else acc

/-- The C library function `atoi`: leading white space, an optional sign,
then digits.  The value is the mathematical one; C leaves the result
undefined when it does not fit an `int`. -/
def atoi (s : String) : Int :=
  match s.data.dropWhile isspace with
  | '-' :: cs => - (atoi_digits 0 cs : Int)
  | '+' :: cs => (atoi_digits 0 cs : Int)
  | cs => (atoi_digits 0 cs : Int)

/-- The test `ent->d_name[0] < '0' || ent->d_name[0] > '9'` of the two
directory scans, negated: the first character of the name is a digit.  The
empty name has the terminator as its first character. -/
def starts_with_digit (d_name : String) : Bool :=
  match d_name.data with
  | [] => false
  | c :: _ => isdigit c

/-! ## The environment -/

/-- What a directory entry is: a symbolic link with its target, or a file
that `readlink` fails on. -/
inductive Node where
  | link (target : String)
  | file
deriving DecidableEq

/-- A directory: the entries by name.  The first entry of a name is the one
the name stands for. -/
abbrev Dir := List (String × Node)

/-- What this file reads of a `struct udev_device`. -/
structure Device where
  /-- `udev_device_get_syspath` -/
  syspath : String
  /-- `udev_device_get_devnode` -/
  devnode : String
  /-- `major(udev_device_get_devnum(dev))` -/
  devnum_major : Nat
  /-- `minor(udev_device_get_devnum(dev))` -/
  devnum_minor : Nat
deriving DecidableEq

/-- What this file reads of a `struct udev`: `udev_get_dev_path`. -/
structure Udev where
  dev_path : String
deriving DecidableEq

/-- The global `inotify_fd` and the world the functions act on. -/
structure State where
  /-- the global `inotify_fd`; negative when inotify is unavailable -/
  inotify_fd : Int
  /-- the paths `inotify_add_watch` accepts: the device nodes that exist -/
  nodes : List String
  /-- the kernel watch table of `inotify_fd`: descriptor and watched path -/
  watches : List (Nat × String)
  /-- the last descriptor the kernel handed out -/
  last_wd : Nat
  /-- the directory `<dev_path>/.udev/watch`, when it exists -/
  watch : Option Dir
  /-- the directory `<dev_path>/.udev/watch.old`, when it exists -/
  watch_old : Option Dir
  /-- the devices sysfs knows -/
  sysfs : List Device
deriving DecidableEq

/-- Where a path leads in the modelled part of the file system. -/
inductive Loc where
  | watch_dir
  | old_dir
  | watch_entry (name : String)
  | old_entry (name : String)
deriving DecidableEq

/-- `some name` when `path` is `dir`, a slash and a non-empty `name`. -/
def entry_name (dir path : String) : Option String :=
  let p := dir.data ++ ['/']
  if path.data.take p.length = p ∧ p.length < path.data.length then
    some ⟨path.data.drop p.length⟩
  else none

/-- Path lookup: the two directories below `dev_path` and their entries are
all the model knows of the file system. -/
def resolve (udev : Udev) (path : String) : Option Loc :=
  let w := udev.dev_path ++ "/.udev/watch"
  let o := udev.dev_path ++ "/.udev/watch.old"
  if path = w then some Loc.watch_dir
  else if path = o then some Loc.old_dir
  else match entry_name w path with
    | some n => some (Loc.watch_entry n)
    | none =>
      match entry_name o path with
      | some n => some (Loc.old_entry n)
      | none => none

/-- The node a path leads to, if any. -/
def node_at (udev : Udev) (st : State) (path : String) : Option Node :=
  match resolve udev path with
  | some (Loc.watch_entry n) => st.watch.bind (fun d => d.lookup n)
  | some (Loc.old_entry n) => st.watch_old.bind (fun d => d.lookup n)
  | _ => none

/-- The system call `readlink(path, buf, bufsiz)`: the length it returns and
what it leaves in `buf`.  It fails with `-1` on anything but a link and cuts
the target at `bufsiz`. -/
def readlink (udev : Udev) (st : State) (path : String) (bufsiz : Nat) : Int × String :=
  match node_at udev st path with
  | some (Node.link t) => ((min t.length bufsiz : Nat), ⟨t.data.take bufsiz⟩)
  | _ => (-1, "")

/-- The system call `unlink(path)`: removes the entry, fails on a directory
or a missing entry. -/
def unlink (udev : Udev) (st : State) (path : String) : State :=
  match resolve udev path with
  | some (Loc.watch_entry n) =>
    { st with watch := st.watch.map (fun d => d.filter (fun e => e.1 ≠ n)) }
  | some (Loc.old_entry n) =>
    { st with watch_old := st.watch_old.map (fun d => d.filter (fun e => e.1 ≠ n)) }
  | _ => st

/-- Adds the link `name -> target` to a directory, unless the name is taken. -/
def dir_symlink (d : Dir) (target name : String) : Dir :=
  if (d.lookup name).isSome then d else d ++ [(name, Node.link target)]

/-- The system call `symlink(target, linkpath)`: fails on an empty target, in
a missing directory and on a name that exists. -/
def symlink (udev : Udev) (st : State) (target linkpath : String) : State :=
  if target = "" then st
  else match resolve udev linkpath with
    | some (Loc.watch_entry n) =>
      { st with watch := st.watch.map (fun d => dir_symlink d target n) }
    | some (Loc.old_entry n) =>
      { st with watch_old := st.watch_old.map (fun d => dir_symlink d target n) }
    | _ => st

/-- Modelled from the spec: `util_create_path` is the directory-creation
utility the spec lists as an external collaborator ("directory creation
ensuring all parent components exist"); its body is not in the source file.
It creates the directories above `path`. -/
def util_create_path (udev : Udev) (st : State) (path : String) : State :=
  match resolve udev path with
  | some (Loc.watch_entry _) => { st with watch := some (st.watch.getD []) }
  | some (Loc.old_entry _) => { st with watch_old := some (st.watch_old.getD []) }
  | _ => st

/-- The system call `rename(oldpath, newpath)` for the one move the file
makes, the watch directory to `watch.old`: it needs the source to exist and
the destination to be missing or an empty directory.  Returns `0` or `-1`. -/
def rename (udev : Udev) (st : State) (oldpath newpath : String) : Int × State :=
  if resolve udev oldpath = some Loc.watch_dir ∧ resolve udev newpath = some Loc.old_dir then
    match st.watch with
    | none => (-1, st)
    | some d =>
      if st.watch_old = none ∨ st.watch_old = some [] then
        (0, { st with watch := none, watch_old := some d })
      else (-1, st)
  else (-1, st)

/-- The calls `opendir` and `readdir`: the names the scan will see, or `none`
when the directory cannot be opened.  Every directory lists `.` and `..`. -/
def opendir (udev : Udev) (st : State) (path : String) : Option (List String) :=
  match resolve udev path with
  | some Loc.watch_dir => st.watch.map (fun d => "." :: ".." :: d.map Prod.fst)
  | some Loc.old_dir => st.watch_old.map (fun d => "." :: ".." :: d.map Prod.fst)
  | _ => none

/-- The system call `rmdir(path)`: removes an empty directory. -/
def rmdir (udev : Udev) (st : State) (path : String) : State :=
  match resolve udev path with
  | some Loc.watch_dir => if st.watch = some [] then { st with watch := none } else st
  | some Loc.old_dir => if st.watch_old = some [] then { st with watch_old := none } else st
  | _ => st

/-- The descriptor the kernel hands out next: above every descriptor in use
and above the last one handed out. -/
def fresh_wd (st : State) : Nat :=
  (st.watches.map Prod.fst).foldr max st.last_wd + 1

/-- The system call `inotify_add_watch(inotify_fd, pathname, IN_CLOSE_WRITE)`:
`-1` when the path cannot be watched, the descriptor of the watch the path
already has, or a new descriptor. -/
def inotify_add_watch (st : State) (pathname : String) : Int × State :=
  if pathname ∈ st.nodes then
    match st.watches.find? (fun e => e.2 = pathname) with
    | some e => ((e.1 : Int), st)
    | none =>
      ((fresh_wd st : Int),
        { st with watches := st.watches ++ [(fresh_wd st, pathname)], last_wd := fresh_wd st })
  else (-1, st)

/-- The system call `inotify_rm_watch(inotify_fd, wd)`. -/
def inotify_rm_watch (st : State) (wd : Int) : State :=
  { st with watches := st.watches.filter (fun e => (e.1 : Int) ≠ wd) }

/-- Modelled from the spec: `udev_device_new_from_syspath` belongs to the
device object collaborator ("for a given identity path string, resolution to
a device object"); its body is not in the source file.  It returns the
device sysfs has under that path, if any. -/
def udev_device_new_from_syspath (st : State) (syspath : String) : Option Device :=
  st.sysfs.find? (fun d => d.syspath = syspath)

/-! ## The functions of `udev-watch.c` -/

section Code

variable (UTIL_PATH_SIZE : Nat)

/-- `udev_watch_filename`, lines 127-138. -/
def udev_watch_filename (udev : Udev) (wd : Int) : String :=
  let str := sprintf_d wd
  let filename := util_strlcpy udev.dev_path UTIL_PATH_SIZE
  let filename := util_strlcat filename "/.udev/watch/" UTIL_PATH_SIZE
  let filename := util_strlcat filename str UTIL_PATH_SIZE
  filename

/-- `udev_watch_begin`, lines 140-158.  A failed `inotify_add_watch` is
logged and the function goes on with the negative `wd`. -/
def udev_watch_begin (udev : Udev) (st : State) (dev : Device) : State :=
  if st.inotify_fd < 0 ∨ dev.devnum_major = 0 then st
  else
    let (wd, st) := inotify_add_watch st dev.devnode
    let filename := udev_watch_filename UTIL_PATH_SIZE udev wd
    let st := util_create_path udev st filename
    let st := unlink udev st filename
    symlink udev st dev.syspath filename

/-- `udev_watch_end`, lines 204-215. -/
def udev_watch_end (udev : Udev) (st : State) (wd : Int) : State :=
  if st.inotify_fd < 0 ∨ wd < 0 then st
  else
    let st := inotify_rm_watch st wd
    let filename := udev_watch_filename UTIL_PATH_SIZE udev wd
    unlink udev st filename

/-- `udev_watch_lookup`, lines 217-235; `none` is the `NULL` result. -/
def udev_watch_lookup (udev : Udev) (st : State) (wd : Int) : Option String :=
  if st.inotify_fd < 0 ∨ wd < 0 then none
  else
    let filename := udev_watch_filename UTIL_PATH_SIZE udev wd
    let (len, buf) := readlink udev st filename UTIL_PATH_SIZE
    if len > 0 then some buf else none

/-- The `while ((ent = readdir(dir)) != NULL)` loop of `udev_watch_clear`,
lines 176-199, over the names `readdir` returns. -/
def clear_loop (udev : Udev) (dev : Device) (filename : String) :
    List String → State → State
  | [], st => st
  | d_name :: rest, st =>
    if ¬ starts_with_digit d_name then clear_loop udev dev filename rest st
    else
      let path := util_strlcpy filename UTIL_PATH_SIZE
      let path := util_strlcat path "/" UTIL_PATH_SIZE
      let path := util_strlcat path d_name UTIL_PATH_SIZE
      let (len, buf) := readlink udev st path UTIL_PATH_SIZE
      if len ≤ 0 then clear_loop udev dev filename rest st
      else if buf ≠ dev.syspath then clear_loop udev dev filename rest st
      else
        clear_loop udev dev filename rest
          (udev_watch_end UTIL_PATH_SIZE udev st (atoi d_name))

/-- `udev_watch_clear`, lines 160-202. -/
def udev_watch_clear (udev : Udev) (st : State) (dev : Device) : State :=
  if st.inotify_fd < 0 ∨ dev.devnum_major = 0 then st
  else
    let filename := util_strlcpy udev.dev_path UTIL_PATH_SIZE
    let filename := util_strlcat filename "/.udev/watch" UTIL_PATH_SIZE
    match opendir udev st filename with
    | none => st
    | some ents => clear_loop UTIL_PATH_SIZE udev dev filename ents st

/-- The `while ((ent = readdir(dir)) != NULL)` loop of `udev_watch_restore`,
lines 85-117, over the names `readdir` returns. -/
def restore_loop (udev : Udev) (oldname : String) : List String → State → State
  | [], st => st
  | d_name :: rest, st =>
    if ¬ starts_with_digit d_name then restore_loop udev oldname rest st
    else
      let path := util_strlcpy oldname UTIL_PATH_SIZE
      let path := util_strlcat path "/" UTIL_PATH_SIZE
      let path := util_strlcat path d_name UTIL_PATH_SIZE
      let (len, buf) := readlink udev st path UTIL_PATH_SIZE
      if len ≤ 0 then restore_loop udev oldname rest (unlink udev st path)
      else
        match udev_device_new_from_syspath st buf with
        | none => restore_loop udev oldname rest (unlink udev st path)
        | some dev =>
          let st := udev_watch_begin UTIL_PATH_SIZE udev st dev
          restore_loop udev oldname rest (unlink udev st path)

/-- `udev_watch_restore`, lines 62-125. -/
def udev_watch_restore (udev : Udev) (st : State) : State :=
  if st.inotify_fd < 0 then st
  else
    let oldname := util_strlcpy udev.dev_path UTIL_PATH_SIZE
    let oldname := util_strlcat oldname "/.udev/watch.old" UTIL_PATH_SIZE
    let filename := util_strlcpy udev.dev_path UTIL_PATH_SIZE
    let filename := util_strlcat filename "/.udev/watch" UTIL_PATH_SIZE
    match rename udev st filename oldname with
    | (0, st) =>
      match opendir udev st oldname with
      | none => st
      | some ents =>
        let st := restore_loop UTIL_PATH_SIZE udev oldname ents st
        rmdir udev st oldname
    | (_, st) => st

end Code

/-! ## Notions the statements are written with -/

/-- The decimal digits of `n` by recursion on `n`; `decimal_digits` computes
them with an accumulator. -/
def dec_spec (n : Nat) : List Char :=
  if h : n < 10 then [Char.ofNat (48 + n)]
  else dec_spec (n / 10) ++ [Char.ofNat (48 + n % 10)]
decreasing_by omega

/-- A device-tree root of 1024 characters, four directory names of 255. -/
def long_dev_path : String :=
  ⟨(List.replicate 4 ('/' :: List.replicate 255 'a')).flatten⟩

/-- The entry path of `name` in the watch directory fits a buffer of `S`
bytes: `dev_path`, the 13 characters of `/.udev/watch/`, the name and the
terminator. -/
def fits (S : Nat) (udev : Udev) (name : String) : Prop :=
  udev.dev_path.length + "/.udev/watch/".length + name.length < S

instance (S : Nat) (udev : Udev) (name : String) : Decidable (fits S udev name) := by
  unfold fits; infer_instance

/-- The node the watch directory has under a name. -/
def watch_node (st : State) (name : String) : Option Node :=
  st.watch.bind (fun d => d.lookup name)

/-- The kernel has a watch with this descriptor. -/
def live (st : State) (wd : Int) : Prop :=
  ∃ e ∈ st.watches, (e.1 : Int) = wd

instance (st : State) (wd : Int) : Decidable (live st wd) := by
  unfold live; infer_instance

/-- The test the scan of `udev_watch_clear` makes on an entry: it is a link
and what `readlink` leaves in the buffer is the device's identity path. -/
def clear_match (S : Nat) (st : State) (dev : Device) (m : String) : Bool :=
  match watch_node st m with
  | some (Node.link t) => decide (0 < min t.length S) && decide ((⟨t.data.take S⟩ : String) = dev.syspath)
  | _ => false

/-- The entry of descriptor `k` is gone and so is its kernel watch. -/
def cleared (st : State) (k : Nat) : Prop :=
  watch_node st (sprintf_d (k : Int)) = none ∧ ¬ live st (k : Int)

/-- What the scan of `udev_watch_clear` keeps true about an entry `name` that
is not a link to the device's identity path. -/
def kept (st cur : State) (name : String) (node : Node) : Prop :=
  (∀ m x, watch_node cur m = some x → watch_node st m = some x)
  ∧ watch_node cur name = some node
  ∧ ∀ k : Nat, name = sprintf_d (k : Int) → live st (k : Int) → live cur (k : Int)

/-- The state with the entry `name` taken out of the watch directory. -/
def without_watch (name : String) (st : State) : State :=
  { st with watch := st.watch.map (fun d => d.filter (fun e => e.1 ≠ name)) }

/-- The state with the entry `name` taken out of `watch.old`. -/
def without_old (name : String) (st : State) : State :=
  { st with watch_old := st.watch_old.map (fun d => d.filter (fun e => e.1 ≠ name)) }

/-- The node `watch.old` has under a name. -/
def old_node (st : State) (name : String) : Option Node :=
  st.watch_old.bind (fun d => d.lookup name)

/-- The path of `name` in `watch.old` fits a buffer of `S` bytes. -/
def fits_old (S : Nat) (udev : Udev) (name : String) : Prop :=
  udev.dev_path.length + "/.udev/watch.old/".length + name.length < S

instance (S : Nat) (udev : Udev) (name : String) : Decidable (fits_old S udev name) := by
  unfold fits_old; infer_instance

/-- The device the replay loop finds behind an entry of `watch.old`, if
any: the entry is a link, `readlink` returns a positive length and sysfs has
a device under what `readlink` left in the buffer. -/
def replay_dev (S : Nat) (st : State) (node : Option Node) : Option Device :=
  match node with
  | some (Node.link t) =>
    if 0 < min t.length S then udev_device_new_from_syspath st ⟨t.data.take S⟩ else none
  | _ => none

/-- A call of one of the three operations. -/
inductive Op where
  | watch_begin (dev : Device)
  | watch_end (wd : Int)
  | watch_clear (dev : Device)
deriving DecidableEq

/-- The state after one call. -/
def step (S : Nat) (udev : Udev) (st : State) : Op → State
  | Op.watch_begin dev => udev_watch_begin S udev st dev
  | Op.watch_end wd => udev_watch_end S udev st wd
  | Op.watch_clear dev => udev_watch_clear S udev st dev

/-- The state after a sequence of calls. -/
def run (S : Nat) (udev : Udev) : State → List Op → State
  | st, [] => st
  | st, op :: ops => run S udev (step S udev st op) ops

/-- What a call needs for the bookkeeping to come out even: a `begin` on a
real device gets a descriptor from the kernel, records a non-empty identity
path, and its entry path fits the buffer; the entry path of an `end` fits
the buffer. -/
def op_ok (S : Nat) (udev : Udev) (st : State) : Op → Prop
  | Op.watch_begin dev =>
    dev.devnum_major = 0
    ∨ (0 ≤ (inotify_add_watch st dev.devnode).1 ∧ dev.syspath ≠ ""
        ∧ fits S udev (sprintf_d (inotify_add_watch st dev.devnode).1))
  | Op.watch_end wd => wd < 0 ∨ fits S udev (sprintf_d wd)
  | Op.watch_clear _ => True

/-- Every call of the sequence meets `op_ok` in the state it is made in. -/
def run_ok (S : Nat) (udev : Udev) : State → List Op → Prop
  | _, [] => True
  | st, op :: ops => op_ok S udev st op ∧ run_ok S udev (step S udev st op) ops

/-- The names in the watch directory. -/
def watch_names (st : State) : List String :=
  (st.watch.getD []).map Prod.fst

/-- The registry and the kernel watch table agree: no name occurs twice,
every live descriptor has its entry, and every entry is named by a live
descriptor (and its path fits the buffer). -/
def consistent (S : Nat) (udev : Udev) (st : State) : Prop :=
  (watch_names st).Nodup
  ∧ (∀ k : Nat, live st (k : Int) → sprintf_d (k : Int) ∈ watch_names st)
  ∧ (∀ n ∈ watch_names st, ∃ k : Nat, live st (k : Int) ∧ n = sprintf_d (k : Int) ∧ fits S udev n)

/-- The device the replay loop will call `udev_watch_begin` on for an entry
of the old directory, if any: the name starts with a digit, the entry is a
readable link and sysfs has a device under its target. -/
def restorable (S : Nat) (st : State) (e : String × Node) : Option Device :=
  if starts_with_digit e.1 then replay_dev S st (some e.2) else none

/-- What the replay loop keeps true from one entry to the next. -/
structure Replay (S : Nat) (udev : Udev) (st0 cur : State) (seen : List String)
    (acc : List Node) : Prop where
  sysfs : cur.sysfs = st0.sysfs
  nodes : cur.nodes = st0.nodes
  fd : 0 ≤ cur.inotify_fd
  table : (cur.watches.map Prod.fst).Nodup
  names : ∀ n ∈ watch_names cur, ∃ e ∈ cur.watches, n = sprintf_d (e.1 : Int) ∧ e.2 ∈ seen
  targets : (cur.watch.getD []).map Prod.snd = acc

/-! ## Concrete devices and states -/

/-- The device tree root of the examples. -/
def ex_udev : Udev := ⟨"/dev"⟩

/-- A disk with device node `/dev/a`. -/
def dev_A : Device := ⟨"/devices/A", "/dev/a", 8, 0⟩

/-- A disk with device node `/dev/b`. -/
def dev_B : Device := ⟨"/devices/B", "/dev/b", 8, 16⟩

/-- A device without a device number (major 0), as a network interface is. -/
def dev_N : Device := ⟨"/devices/N", "/dev/n", 0, 0⟩

/-- A device whose node is missing from `/dev`, so that `inotify_add_watch`
fails on it. -/
def dev_X : Device := ⟨"/devices/X", "/dev/x", 8, 32⟩

/-- The state at startup: inotify is up, nothing is watched, no registry. -/
def ex_start : State :=
  { inotify_fd := 3, nodes := ["/dev/a", "/dev/b", "/dev/n"], watches := [], last_wd := 0,
    watch := none, watch_old := none, sysfs := [dev_A, dev_B, dev_N, dev_X] }

/-- A registry left by a previous run: `5 -> /devices/A`, `6 -> /devices/B`. -/
def ex_prior : State :=
  { ex_start with watch := some [("5", Node.link "/devices/A"), ("6", Node.link "/devices/B")] }

/-- A registry left by a previous run with an entry for a device that is
gone: `5 -> /devices/A`, `7 -> /devices/GONE`. -/
def ex_prior_gone : State :=
  { ex_start with
    watch := some [("5", Node.link "/devices/A"), ("7", Node.link "/devices/GONE")] }

/-- A registry left by a previous run whose one entry is for the device
without a major number. -/
def ex_prior_N : State :=
  { ex_start with watch := some [("5", Node.link "/devices/N")] }

/-- A registry left by a previous run with a file called `README` in it. -/
def ex_prior_readme : State :=
  { ex_start with
    watch := some [("5", Node.link "/devices/A"), ("README", Node.file)] }

/-- A running state: `/dev/a` is watched under descriptor 5, and the
registry has its entry `5` and an entry `5x` for `/devices/B`. -/
def ex_loose : State :=
  { ex_start with
    watches := [(5, "/dev/a")], last_wd := 5,
    watch := some [("5", Node.link "/devices/A"), ("5x", Node.link "/devices/B")] }

/-- A running state: `/dev/a` is watched under descriptor 5 and `/dev/b`
under descriptor 6, with their two entries and a `README`. -/
def ex_running : State :=
  { ex_start with
    watches := [(5, "/dev/a"), (6, "/dev/b")], last_wd := 6,
    watch := some [("5", Node.link "/devices/A"), ("6", Node.link "/devices/B"),
      ("README", Node.file)] }

/-- A device-tree root of 1010 characters, five directory names of 201;
with `/.udev/watch/` appended it fills a buffer of 1024 bytes. -/
def root_1010 : String :=
  ⟨(List.replicate 5 ('/' :: List.replicate 201 'a')).flatten⟩

/-- Whether a call meets `op_ok` can be computed. -/
def op_ok_dec (S : Nat) (udev : Udev) (st : State) : (op : Op) → Decidable (op_ok S udev st op)
  | Op.watch_begin dev =>
    inferInstanceAs (Decidable (dev.devnum_major = 0
      ∨ (0 ≤ (inotify_add_watch st dev.devnode).1 ∧ dev.syspath ≠ ""
          ∧ fits S udev (sprintf_d (inotify_add_watch st dev.devnode).1))))
  | Op.watch_end wd => inferInstanceAs (Decidable (wd < 0 ∨ fits S udev (sprintf_d wd)))
  | Op.watch_clear _ => isTrue trivial

instance (S : Nat) (udev : Udev) (st : State) (op : Op) : Decidable (op_ok S udev st op) :=
  op_ok_dec S udev st op

/-- Whether a sequence of calls meets `run_ok` can be computed. -/
def run_ok_dec (S : Nat) (udev : Udev) :
    (st : State) → (ops : List Op) → Decidable (run_ok S udev st ops)
  | _, [] => isTrue trivial
  | st, op :: ops =>
    @instDecidableAnd _ _ (op_ok_dec S udev st op) (run_ok_dec S udev (step S udev st op) ops)

instance (S : Nat) (udev : Udev) (st : State) (ops : List Op) :
    Decidable (run_ok S udev st ops) :=
  run_ok_dec S udev st ops

/-- The target of a link fits the buffer `readlink` is given; a file has no
target. -/
def node_fits (S : Nat) : Node → Prop
  | Node.link t => t.length < S
  | Node.file => True

instance (S : Nat) (n : Node) : Decidable (node_fits S n) := by
  cases n <;> unfold node_fits <;> infer_instance

/-! # Theorems -/

/-! ## The bounded string helpers -/

theorem take_take_append (n : Nat) (x y : List Char) :
    (x.take n ++ y.take (n - (x.take n).length)) = (x ++ y).take n := by
  rw [List.take_append_eq_append_take, List.length_take]
  by_cases h : x.length ≤ n
  · rw [Nat.min_eq_right h]
  · have h1 : n ≤ x.length := by omega
    rw [Nat.min_eq_left h1]
    have h2 : n - x.length = 0 := by omega
    simp [h2]

/-- Appending to a buffer that holds a cut string gives the cut of the
concatenation. -/
theorem strlcat_take (x : List Char) (src : String) (S : Nat) :
    util_strlcat ⟨x.take (S - 1)⟩ src S = ⟨(x ++ src.data).take (S - 1)⟩ := by
  unfold util_strlcat
  by_cases h : S ≤ (String.mk (x.take (S - 1))).length
  · rw [if_pos h]
    have hl : (String.mk (x.take (S - 1))).length = (x.take (S - 1)).length := rfl
    rw [hl, List.length_take] at h
    have hS : S = 0 := by omega
    subst hS
    simp
  · rw [if_neg h]
    have hl : (String.mk (x.take (S - 1))).length = (x.take (S - 1)).length := rfl
    rw [hl]
    show String.mk (x.take (S - 1) ++ src.data.take (S - 1 - (x.take (S - 1)).length)) = _
    rw [take_take_append]

theorem strlcpy_take (x : List Char) (S : Nat) :
    util_strlcpy ⟨x.take (S - 1)⟩ S = ⟨x.take (S - 1)⟩ := by
  unfold util_strlcpy
  simp [List.take_take]

/-- The path of a watch entry is the cut of the full concatenation. -/
theorem filename_data (S : Nat) (udev : Udev) (wd : Int) :
    udev_watch_filename S udev wd
      = ⟨(udev.dev_path.data ++ "/.udev/watch/".data ++ (sprintf_d wd).data).take (S - 1)⟩ := by
  unfold udev_watch_filename
  simp only []
  have h0 : util_strlcpy udev.dev_path S = ⟨udev.dev_path.data.take (S - 1)⟩ := rfl
  rw [h0, strlcat_take, strlcat_take]

/-- The path a directory scan builds for an entry is the cut of the full
concatenation, whatever had been cut off the directory path before. -/
theorem scan_path_data (S : Nat) (x : List Char) (d_name : String) :
    util_strlcat (util_strlcat (util_strlcpy ⟨x.take (S - 1)⟩ S) "/" S) d_name S
      = ⟨(x ++ "/".data ++ d_name.data).take (S - 1)⟩ := by
  rw [strlcpy_take, strlcat_take, strlcat_take]

theorem dir_path_data (S : Nat) (udev : Udev) (suffix : String) :
    util_strlcat (util_strlcpy udev.dev_path S) suffix S
      = ⟨(udev.dev_path.data ++ suffix.data).take (S - 1)⟩ := by
  have h0 : util_strlcpy udev.dev_path S = ⟨udev.dev_path.data.take (S - 1)⟩ := rfl
  rw [h0, strlcat_take]

/-! ## Path lookup -/

theorem entry_name_eq_some (dir path n : String) :
    entry_name dir path = some n ↔ n.data ≠ [] ∧ path.data = dir.data ++ '/' :: n.data := by
  unfold entry_name
  simp only []
  constructor
  · intro h
    split at h
    · rename_i hc
      obtain ⟨h1, h2⟩ := hc
      have hn : n = ⟨path.data.drop (dir.data ++ ['/']).length⟩ := by
        simpa using h.symm
      subst hn
      constructor
      · intro h0
        have h0' : path.data.drop (dir.data ++ ['/']).length = [] := h0
        have := List.drop_eq_nil_iff.mp h0'
        omega
      · have := List.take_append_drop (dir.data ++ ['/']).length path.data
        rw [h1] at this
        simpa using this.symm
    · exact absurd h (by simp)
  · rintro ⟨h1, h2⟩
    have hp : path.data = (dir.data ++ ['/']) ++ n.data := by simp [h2]
    have hlen : 0 < n.data.length := List.length_pos.mpr h1
    rw [if_pos]
    · rw [hp, List.drop_left]
    · constructor
      · rw [hp, List.take_left]
      · rw [hp]; simp only [List.length_append]; omega

theorem entry_name_eq_none (dir path : String) :
    entry_name dir path = none ↔ ∀ n : String, n.data ≠ [] → path.data ≠ dir.data ++ '/' :: n.data := by
  constructor
  · intro h n hn hp
    have := (entry_name_eq_some dir path n).mpr ⟨hn, hp⟩
    rw [h] at this
    exact absurd this (by simp)
  · intro h
    cases hx : entry_name dir path with
    | none => rfl
    | some n =>
      obtain ⟨h1, h2⟩ := (entry_name_eq_some dir path n).mp hx
      exact absurd h2 (h n h1)

/-- The characters of `<dev_path>/.udev/watch`. -/
theorem watch_dir_data (udev : Udev) :
    (udev.dev_path ++ "/.udev/watch").data = udev.dev_path.data ++ "/.udev/watch".data :=
  String.data_append _ _

theorem old_dir_data (udev : Udev) :
    (udev.dev_path ++ "/.udev/watch.old").data
      = udev.dev_path.data ++ "/.udev/watch".data ++ ".old".data := by
  rw [String.data_append, List.append_assoc]
  rfl

theorem resolve_watch_dir (udev : Udev) :
    resolve udev ⟨udev.dev_path.data ++ "/.udev/watch".data⟩ = some Loc.watch_dir := by
  unfold resolve
  simp only []
  rw [if_pos]
  apply String.ext_iff.mpr
  rw [watch_dir_data]

theorem resolve_old_dir (udev : Udev) :
    resolve udev ⟨udev.dev_path.data ++ "/.udev/watch.old".data⟩ = some Loc.old_dir := by
  unfold resolve
  simp only []
  rw [if_neg, if_pos]
  · apply String.ext_iff.mpr
    rw [String.data_append]
  · intro h
    have := String.ext_iff.mp h
    rw [watch_dir_data] at this
    have h2 := congrArg List.length this
    simp at h2

theorem resolve_watch_entry (udev : Udev) (n : String) (hn : n.data ≠ []) :
    resolve udev ⟨udev.dev_path.data ++ "/.udev/watch".data ++ '/' :: n.data⟩
      = some (Loc.watch_entry n) := by
  have hlen : 0 < n.data.length := List.length_pos.mpr hn
  unfold resolve
  simp only []
  rw [if_neg, if_neg]
  · have : entry_name (udev.dev_path ++ "/.udev/watch")
        ⟨udev.dev_path.data ++ "/.udev/watch".data ++ '/' :: n.data⟩ = some n := by
      rw [entry_name_eq_some]
      exact ⟨hn, by rw [watch_dir_data]⟩
    rw [this]
  · intro h
    have := String.ext_iff.mp h
    rw [old_dir_data] at this
    have h3 : ('/' :: n.data) = ".old".data := List.append_cancel_left this
    have h4 : ".old".data = ['.', 'o', 'l', 'd'] := rfl
    rw [h4] at h3
    injection h3 with h5 _
    exact absurd h5 (by decide)
  · intro h
    have := String.ext_iff.mp h
    rw [watch_dir_data] at this
    have h2 := congrArg List.length this
    simp at h2

theorem resolve_old_entry (udev : Udev) (n : String) (hn : n.data ≠ []) :
    resolve udev ⟨udev.dev_path.data ++ "/.udev/watch".data ++ ".old".data ++ '/' :: n.data⟩
      = some (Loc.old_entry n) := by
  have hlen : 0 < n.data.length := List.length_pos.mpr hn
  unfold resolve
  simp only []
  rw [if_neg, if_neg]
  · have h1 : entry_name (udev.dev_path ++ "/.udev/watch")
        ⟨udev.dev_path.data ++ "/.udev/watch".data ++ ".old".data ++ '/' :: n.data⟩ = none := by
      rw [entry_name_eq_none]
      intro m _ hm
      rw [watch_dir_data] at hm
      simp only [List.append_assoc] at hm
      have h3 := List.append_cancel_left (List.append_cancel_left hm)
      simp at h3
    have h2 : entry_name (udev.dev_path ++ "/.udev/watch.old")
        ⟨udev.dev_path.data ++ "/.udev/watch".data ++ ".old".data ++ '/' :: n.data⟩ = some n := by
      rw [entry_name_eq_some]
      exact ⟨hn, by rw [old_dir_data]⟩
    rw [h1, h2]
  · intro h
    have := String.ext_iff.mp h
    rw [old_dir_data] at this
    have h2 := congrArg List.length this
    simp at h2
  · intro h
    have := String.ext_iff.mp h
    rw [watch_dir_data] at this
    have h2 := congrArg List.length this
    simp at h2

/-- What a path can lead to, read off its characters. -/
theorem resolve_cases (udev : Udev) (path : String) :
    (resolve udev path = some Loc.watch_dir
        ∧ path.data = udev.dev_path.data ++ "/.udev/watch".data)
    ∨ (resolve udev path = some Loc.old_dir
        ∧ path.data = udev.dev_path.data ++ "/.udev/watch".data ++ ".old".data)
    ∨ (∃ n : String, resolve udev path = some (Loc.watch_entry n) ∧ n.data ≠ []
        ∧ path.data = udev.dev_path.data ++ "/.udev/watch".data ++ '/' :: n.data)
    ∨ (∃ n : String, resolve udev path = some (Loc.old_entry n) ∧ n.data ≠ []
        ∧ path.data = udev.dev_path.data ++ "/.udev/watch".data ++ ".old".data ++ '/' :: n.data)
    ∨ resolve udev path = none := by
  unfold resolve
  simp only []
  by_cases h1 : path = udev.dev_path ++ "/.udev/watch"
  · left
    rw [if_pos h1]
    exact ⟨rfl, by rw [h1, watch_dir_data]⟩
  · rw [if_neg h1]
    by_cases h2 : path = udev.dev_path ++ "/.udev/watch.old"
    · right; left
      rw [if_pos h2]
      exact ⟨rfl, by rw [h2, old_dir_data]⟩
    · rw [if_neg h2]
      cases h3 : entry_name (udev.dev_path ++ "/.udev/watch") path with
      | some n =>
        right; right; left
        obtain ⟨hn, hp⟩ := (entry_name_eq_some _ _ _).mp h3
        exact ⟨n, rfl, hn, by rw [hp, watch_dir_data]⟩
      | none =>
        cases h4 : entry_name (udev.dev_path ++ "/.udev/watch.old") path with
        | some n =>
          right; right; right; left
          obtain ⟨hn, hp⟩ := (entry_name_eq_some _ _ _).mp h4
          exact ⟨n, rfl, hn, by rw [hp, old_dir_data]⟩
        | none =>
          right; right; right; right
          rfl

/-- A cut path below the watch directory leads nowhere, to the directory, or
to an entry whose name is a non-empty beginning of the name asked for. -/
theorem resolve_cut_watch (udev : Udev) (s : List Char) (k : Nat) :
    resolve udev ⟨(udev.dev_path.data ++ "/.udev/watch".data ++ '/' :: s).take k⟩ = none
    ∨ resolve udev ⟨(udev.dev_path.data ++ "/.udev/watch".data ++ '/' :: s).take k⟩
        = some Loc.watch_dir
    ∨ ∃ n : String, resolve udev ⟨(udev.dev_path.data ++ "/.udev/watch".data ++ '/' :: s).take k⟩
        = some (Loc.watch_entry n) ∧ n.data ≠ [] ∧ n.data <+: s := by
  have hpre := List.take_prefix k (udev.dev_path.data ++ "/.udev/watch".data ++ '/' :: s)
  rcases resolve_cases udev ⟨(udev.dev_path.data ++ "/.udev/watch".data ++ '/' :: s).take k⟩
    with ⟨h, _⟩ | ⟨_, hp⟩ | ⟨n, h, hn, hp⟩ | ⟨n, _, _, hp⟩ | h
  · exact Or.inr (Or.inl h)
  · exfalso
    have hp' : (udev.dev_path.data ++ "/.udev/watch".data ++ '/' :: s).take k
        = udev.dev_path.data ++ "/.udev/watch".data ++ ".old".data := hp
    rw [hp'] at hpre
    rw [List.prefix_append_right_inj] at hpre
    have h4 : ".old".data = ['.', 'o', 'l', 'd'] := rfl
    rw [h4, List.cons_prefix_cons] at hpre
    exact absurd hpre.1 (by decide)
  · refine Or.inr (Or.inr ⟨n, h, hn, ?_⟩)
    have hp' : (udev.dev_path.data ++ "/.udev/watch".data ++ '/' :: s).take k
        = udev.dev_path.data ++ "/.udev/watch".data ++ '/' :: n.data := hp
    rw [hp'] at hpre
    rw [List.prefix_append_right_inj, List.cons_prefix_cons] at hpre
    exact hpre.2
  · exfalso
    have hp' : (udev.dev_path.data ++ "/.udev/watch".data ++ '/' :: s).take k
        = udev.dev_path.data ++ "/.udev/watch".data ++ ".old".data ++ '/' :: n.data := hp
    rw [hp'] at hpre
    rw [List.append_assoc (udev.dev_path.data ++ "/.udev/watch".data),
      List.prefix_append_right_inj] at hpre
    have h4 : ".old".data = ['.', 'o', 'l', 'd'] := rfl
    rw [h4] at hpre
    simp only [List.cons_append, List.cons_prefix_cons] at hpre
    exact absurd hpre.1 (by decide)
  · exact Or.inl h

/-- A cut path below `watch.old` leads nowhere, to one of the two
directories, or to an entry of `watch.old` whose name is a non-empty
beginning of the name asked for. -/
theorem resolve_cut_old (udev : Udev) (s : List Char) (k : Nat) :
    resolve udev ⟨(udev.dev_path.data ++ "/.udev/watch".data ++ ".old".data ++ '/' :: s).take k⟩
        = none
    ∨ resolve udev ⟨(udev.dev_path.data ++ "/.udev/watch".data ++ ".old".data ++ '/' :: s).take k⟩
        = some Loc.watch_dir
    ∨ resolve udev ⟨(udev.dev_path.data ++ "/.udev/watch".data ++ ".old".data ++ '/' :: s).take k⟩
        = some Loc.old_dir
    ∨ ∃ n : String,
        resolve udev
          ⟨(udev.dev_path.data ++ "/.udev/watch".data ++ ".old".data ++ '/' :: s).take k⟩
          = some (Loc.old_entry n) ∧ n.data ≠ [] ∧ n.data <+: s := by
  have hpre := List.take_prefix k
    (udev.dev_path.data ++ "/.udev/watch".data ++ ".old".data ++ '/' :: s)
  rcases resolve_cases udev
    ⟨(udev.dev_path.data ++ "/.udev/watch".data ++ ".old".data ++ '/' :: s).take k⟩
    with ⟨h, _⟩ | ⟨h, _⟩ | ⟨n, _, _, hp⟩ | ⟨n, h, hn, hp⟩ | h
  · exact Or.inr (Or.inl h)
  · exact Or.inr (Or.inr (Or.inl h))
  · exfalso
    have hp' : (udev.dev_path.data ++ "/.udev/watch".data ++ ".old".data ++ '/' :: s).take k
        = udev.dev_path.data ++ "/.udev/watch".data ++ '/' :: n.data := hp
    rw [hp'] at hpre
    rw [List.append_assoc (udev.dev_path.data ++ "/.udev/watch".data),
      List.prefix_append_right_inj] at hpre
    have h4 : ".old".data = ['.', 'o', 'l', 'd'] := rfl
    rw [h4] at hpre
    simp only [List.cons_append, List.cons_prefix_cons] at hpre
    exact absurd hpre.1 (by decide)
  · refine Or.inr (Or.inr (Or.inr ⟨n, h, hn, ?_⟩))
    have hp' : (udev.dev_path.data ++ "/.udev/watch".data ++ ".old".data ++ '/' :: s).take k
        = udev.dev_path.data ++ "/.udev/watch".data ++ ".old".data ++ '/' :: n.data := hp
    rw [hp'] at hpre
    rw [List.prefix_append_right_inj, List.cons_prefix_cons] at hpre
    exact hpre.2
  · exact Or.inl h

/-- The cut of the full entry path, as `filename_data` and `scan_path_data`
produce it, written with the slash in front of the name. -/
theorem watch_path_shape (udev : Udev) (s : List Char) :
    udev.dev_path.data ++ "/.udev/watch/".data ++ s
      = udev.dev_path.data ++ "/.udev/watch".data ++ '/' :: s := by
  have : "/.udev/watch/".data = "/.udev/watch".data ++ ['/'] := rfl
  rw [this]
  simp

theorem scan_path_shape (udev : Udev) (dir : String) (s : List Char) :
    udev.dev_path.data ++ dir.data ++ "/".data ++ s
      = udev.dev_path.data ++ dir.data ++ '/' :: s := by
  have : "/".data = ['/'] := rfl
  rw [this]
  simp

theorem old_suffix_data : "/.udev/watch.old".data = "/.udev/watch".data ++ ".old".data := rfl

/-- No cut happens when the string fits the buffer. -/
theorem take_fits (x : List Char) (S : Nat) (h : x.length < S) : x.take (S - 1) = x :=
  List.take_of_length_le (by omega)

/-! ## Decimal rendering and `atoi` -/

theorem decimal_digits_eq (fuel : Nat) :
    ∀ (n : Nat) (acc : List Char), n < fuel → decimal_digits fuel n acc = dec_spec n ++ acc := by
  induction fuel with
  | zero => intro n acc h; omega
  | succ f ih =>
    intro n acc h
    unfold decimal_digits
    simp only []
    by_cases h0 : n / 10 = 0
    · rw [if_pos h0]
      have hn : n < 10 := by omega
      rw [dec_spec, dif_pos hn, Nat.mod_eq_of_lt hn]
      rfl
    · rw [if_neg h0]
      have hn : ¬ n < 10 := by omega
      rw [ih (n / 10) _ (by omega)]
      rw [dec_spec.eq_1 n, dif_neg hn]
      simp

theorem sprintf_d_nat (n : Nat) : (sprintf_d (n : Int)).data = dec_spec n := by
  show decimal_digits (n + 1) n [] = dec_spec n
  rw [decimal_digits_eq (n + 1) n [] (by omega)]
  simp

theorem sprintf_d_negSucc (n : Nat) :
    (sprintf_d (Int.negSucc n)).data = '-' :: dec_spec (n + 1) := by
  show '-' :: decimal_digits (n + 2) (n + 1) [] = _
  rw [decimal_digits_eq (n + 2) (n + 1) [] (by omega)]
  simp

theorem digit_char_isdigit : ∀ k, k < 10 → isdigit (Char.ofNat (48 + k)) = true := by decide

theorem digit_char_toNat : ∀ k, k < 10 → (Char.ofNat (48 + k)).toNat - 48 = k := by decide

theorem dec_spec_digits (n : Nat) : ∀ c ∈ dec_spec n, isdigit c = true := by
  induction n using Nat.strong_induction_on with
  | _ n ih =>
    intro c hc
    rw [dec_spec] at hc
    by_cases hn : n < 10
    · rw [dif_pos hn] at hc
      simp at hc
      rw [hc]
      exact digit_char_isdigit n hn
    · rw [dif_neg hn] at hc
      rcases List.mem_append.mp hc with h | h
      · exact ih (n / 10) (by omega) c h
      · simp at h
        rw [h]
        exact digit_char_isdigit (n % 10) (Nat.mod_lt _ (by omega))

theorem dec_spec_ne_nil (n : Nat) : dec_spec n ≠ [] := by
  rw [dec_spec]
  by_cases hn : n < 10
  · rw [dif_pos hn]; simp
  · rw [dif_neg hn]; simp

theorem atoi_digits_append (xs ys : List Char) (h : ∀ c ∈ xs, isdigit c = true) :
    ∀ acc, atoi_digits acc (xs ++ ys) = atoi_digits (atoi_digits acc xs) ys := by
  induction xs with
  | nil => intro acc; rfl
  | cons x xs ih =>
    intro acc
    have hx : isdigit x = true := h x (List.mem_cons_self _ _)
    simp only [List.cons_append, atoi_digits, hx, if_true]
    exact ih (fun c hc => h c (List.mem_cons_of_mem _ hc)) _

theorem atoi_digits_dec_spec (n : Nat) : atoi_digits 0 (dec_spec n) = n := by
  induction n using Nat.strong_induction_on with
  | _ n ih =>
    rw [dec_spec]
    by_cases hn : n < 10
    · rw [dif_pos hn]
      simp only [atoi_digits, digit_char_isdigit n hn, if_true, digit_char_toNat n hn]
      omega
    · rw [dif_neg hn]
      rw [atoi_digits_append _ _ (dec_spec_digits (n / 10)), ih (n / 10) (by omega)]
      have hm : n % 10 < 10 := Nat.mod_lt _ (by omega)
      simp only [atoi_digits, digit_char_isdigit _ hm, if_true, digit_char_toNat _ hm]
      omega

theorem dec_spec_head (n : Nat) : ∃ c cs, dec_spec n = c :: cs ∧ isdigit c = true := by
  cases h : dec_spec n with
  | nil => exact absurd h (dec_spec_ne_nil n)
  | cons c cs =>
    refine ⟨c, cs, rfl, ?_⟩
    apply dec_spec_digits n
    rw [h]
    exact List.mem_cons_self _ _

theorem sprintf_d_ne_nil (wd : Int) : (sprintf_d wd).data ≠ [] := by
  cases wd with
  | ofNat n =>
    show (sprintf_d (n : Int)).data ≠ []
    rw [sprintf_d_nat]
    exact dec_spec_ne_nil n
  | negSucc n => rw [sprintf_d_negSucc]; simp

theorem isdigit_not_space : ∀ c : Char, isdigit c = true → isspace c = false := by
  intro c h
  unfold isdigit at h
  unfold isspace
  simp only [Bool.and_eq_true, decide_eq_true_eq] at h
  obtain ⟨h1, h2⟩ := h
  have h1' : (48 : Nat) ≤ c.toNat := h1
  simp only [Bool.or_eq_false_iff, beq_eq_false_iff_ne, ne_eq]
  refine ⟨⟨⟨⟨⟨?_, ?_⟩, ?_⟩, ?_⟩, ?_⟩, ?_⟩ <;>
  · intro hc
    rw [hc] at h1'
    revert h1'
    decide

theorem isdigit_not_sign : ∀ c : Char, isdigit c = true → c ≠ '-' ∧ c ≠ '+' := by
  intro c h
  unfold isdigit at h
  simp only [Bool.and_eq_true, decide_eq_true_eq] at h
  obtain ⟨h1, h2⟩ := h
  have h1' : (48 : Nat) ≤ c.toNat := h1
  constructor <;>
  · intro hc
    rw [hc] at h1'
    revert h1'
    decide

/-- On a name that starts with a digit `atoi` is the digit loop alone. -/
theorem atoi_of_digit (s : String) (h : starts_with_digit s = true) :
    atoi s = (atoi_digits 0 s.data : Int) := by
  unfold starts_with_digit at h
  unfold atoi
  cases hs : s.data with
  | nil => rw [hs] at h; exact absurd h (by simp)
  | cons c cs =>
    rw [hs] at h
    simp only [] at h
    have hsp := isdigit_not_space c h
    obtain ⟨hm, hp⟩ := isdigit_not_sign c h
    rw [List.dropWhile_cons_of_neg (by simp [hsp])]
    split
    · rename_i heq; injection heq with h1 _; exact absurd h1 hm
    · rename_i heq; injection heq with h1 _; exact absurd h1 hp
    · rfl

theorem atoi_nonneg (s : String) (h : starts_with_digit s = true) : 0 ≤ atoi s := by
  rw [atoi_of_digit s h]
  exact Int.ofNat_nonneg _

theorem sprintf_d_starts_with_digit (n : Nat) : starts_with_digit (sprintf_d (n : Int)) = true := by
  unfold starts_with_digit
  obtain ⟨c, cs, h, hc⟩ := dec_spec_head n
  rw [sprintf_d_nat, h]
  exact hc

/-- The decode of `udev_watch_clear` undoes the encode of
`udev_watch_filename` on a non-negative descriptor. -/
theorem atoi_sprintf_d (n : Nat) : atoi (sprintf_d (n : Int)) = (n : Int) := by
  rw [atoi_of_digit _ (sprintf_d_starts_with_digit n), sprintf_d_nat, atoi_digits_dec_spec]

theorem sprintf_d_injective (a b : Nat) (h : sprintf_d (a : Int) = sprintf_d (b : Int)) : a = b := by
  have := congrArg atoi h
  rw [atoi_sprintf_d, atoi_sprintf_d] at this
  exact_mod_cast this

/-- A non-empty beginning of a name that starts with a digit starts with a
digit. -/
theorem digit_of_beginning (n m : String) (hn : n.data ≠ []) (hp : n.data <+: m.data)
    (hm : starts_with_digit m = true) : starts_with_digit n = true := by
  unfold starts_with_digit at *
  cases hnd : n.data with
  | nil => exact absurd hnd hn
  | cons c cs =>
    rw [hnd] at hp
    cases hmd : m.data with
    | nil => rw [hmd] at hm; exact absurd hm (by simp)
    | cons c' cs' =>
      rw [hmd] at hp hm
      rw [List.cons_prefix_cons] at hp
      simp only [] at hm ⊢
      rw [hp.1]
      exact hm

/-- C6, as amended: for every descriptor `wd` and every device-tree root
`r` such that `r`, `/.udev/watch/` and the decimal rendering of `wd` together
are shorter than the path buffer, the path `udev_watch_filename` builds (the
one `begin`, `end` and `lookup` work on) is exactly `r` followed by
`/.udev/watch/` followed by the decimal rendering of `wd`. -/
theorem C6_filename_when_fits (UTIL_PATH_SIZE : Nat) (udev : Udev) (wd : Int)
    (hfit : udev.dev_path.length + "/.udev/watch/".length + (sprintf_d wd).length
      < UTIL_PATH_SIZE) :
    udev_watch_filename UTIL_PATH_SIZE udev wd
      = udev.dev_path ++ "/.udev/watch/" ++ sprintf_d wd := by
  rw [filename_data]
  apply String.ext_iff.mpr
  rw [String.data_append, String.data_append]
  apply take_fits
  simp only [List.length_append]
  exact hfit

/-- C6 at a concrete input: root `/dev`, descriptor 5, buffers of 1024
bytes. -/
theorem C6_filename_when_fits_witness : udev_watch_filename 1024 ⟨"/dev"⟩ 5 = "/dev" ++ "/.udev/watch/" ++ sprintf_d 5 :=
  C6_filename_when_fits 1024 ⟨"/dev"⟩ 5 (by decide)

theorem filename_length_le (S : Nat) (udev : Udev) (wd : Int) :
    (udev_watch_filename S udev wd).length ≤ S - 1 := by
  rw [filename_data]
  show (List.take _ _).length ≤ S - 1
  rw [List.length_take]
  omega

theorem long_dev_path_length : long_dev_path.length = 1024 := by
  simp only [long_dev_path, String.length, List.length_flatten, List.map_replicate,
    List.sum_replicate, List.length_cons, List.length_replicate]
  rfl

/-- C6 as stated fails for a device-tree root of 1024 characters with path
buffers of 1024 bytes: the path `udev_watch_filename` builds is cut to 1023
characters and is not the root followed by `/.udev/watch/5`. -/
theorem C6_filename_cut :
    ¬ (udev_watch_filename 1024 ⟨long_dev_path⟩ 5
        = long_dev_path ++ "/.udev/watch/" ++ sprintf_d 5) := by
  intro h
  have h1 := congrArg String.length h
  rw [String.length_append, String.length_append, long_dev_path_length] at h1
  have h3 := filename_length_le 1024 ⟨long_dev_path⟩ 5
  omega

/-- C9: for every state and every device whose device number has major
component zero, `udev_watch_begin` and `udev_watch_clear` return the state
unchanged: kernel watch table and registry are as before. -/
theorem C9_major_zero_noop (UTIL_PATH_SIZE : Nat) (udev : Udev) (st : State) (dev : Device)
    (h : dev.devnum_major = 0) :
    udev_watch_begin UTIL_PATH_SIZE udev st dev = st
      ∧ udev_watch_clear UTIL_PATH_SIZE udev st dev = st := by
  unfold udev_watch_begin udev_watch_clear
  simp [h]

/-- C8: for every state and every descriptor, calling `udev_watch_end` twice
leaves registry and kernel watch table (the whole state) exactly as a single
call leaves them.  The function returns nothing, so there is no error for the
second call to report. -/
theorem C8_end_idempotent (UTIL_PATH_SIZE : Nat) (udev : Udev) (st : State) (wd : Int) :
    udev_watch_end UTIL_PATH_SIZE udev (udev_watch_end UTIL_PATH_SIZE udev st wd) wd
      = udev_watch_end UTIL_PATH_SIZE udev st wd := by
  unfold udev_watch_end
  by_cases h : st.inotify_fd < 0 ∨ wd < 0
  · simp [h]
  · simp only [h, if_false]
    unfold unlink inotify_rm_watch
    rcases hr : resolve udev (udev_watch_filename UTIL_PATH_SIZE udev wd) with _ | l
    · simp [h]
    · cases l <;> simp [h, List.filter_filter]
      all_goals
        cases st.watch <;> cases st.watch_old <;> simp [List.filter_filter]

/-! ## The operations when the entry path fits the buffer -/

theorem filename_of_fits (S : Nat) (udev : Udev) (wd : Int) (h : fits S udev (sprintf_d wd)) :
    udev_watch_filename S udev wd
      = ⟨udev.dev_path.data ++ "/.udev/watch".data ++ '/' :: (sprintf_d wd).data⟩ := by
  rw [filename_data, watch_path_shape, ← watch_path_shape]
  rw [take_fits]
  simp only [List.length_append]
  exact h

theorem resolve_filename (S : Nat) (udev : Udev) (wd : Int) (h : fits S udev (sprintf_d wd)) :
    resolve udev (udev_watch_filename S udev wd) = some (Loc.watch_entry (sprintf_d wd)) := by
  rw [filename_of_fits S udev wd h]
  exact resolve_watch_entry udev _ (sprintf_d_ne_nil wd)

theorem lookup_filter_self (d : Dir) (n : String) :
    (d.filter (fun e => e.1 ≠ n)).lookup n = none := by
  induction d with
  | nil => rfl
  | cons e d ih =>
    obtain ⟨k, v⟩ := e
    by_cases hk : k = n
    · rw [List.filter_cons_of_neg (by simp [hk])]
      exact ih
    · rw [List.filter_cons_of_pos (by simp [hk])]
      have : (n == k) = false := by simpa using fun h => hk h.symm
      rw [List.lookup_cons, this]
      exact ih

theorem lookup_filter_ne (d : Dir) (n m : String) (h : m ≠ n) :
    (d.filter (fun e => e.1 ≠ n)).lookup m = d.lookup m := by
  induction d with
  | nil => rfl
  | cons e d ih =>
    obtain ⟨k, v⟩ := e
    by_cases hk : k = n
    · rw [List.filter_cons_of_neg (by simp [hk])]
      have : (m == k) = false := by simpa [hk] using h
      rw [List.lookup_cons, this]
      exact ih
    · rw [List.filter_cons_of_pos (by simp [hk])]
      rw [List.lookup_cons, List.lookup_cons, ih]

theorem lookup_append_new (d : Dir) (n : String) (v : Node) (h : d.lookup n = none) :
    (d ++ [(n, v)]).lookup n = some v := by
  induction d with
  | nil => simp [List.lookup_cons]
  | cons e d ih =>
    obtain ⟨k, w⟩ := e
    rw [List.lookup_cons] at h
    by_cases hk : (n == k) = true
    · rw [hk] at h; exact absurd h (by simp)
    · have hk' : (n == k) = false := by simpa using hk
      rw [hk'] at h
      simp only [List.cons_append, List.lookup_cons, hk']
      exact ih h

theorem add_watch_fd (st : State) (p : String) :
    (inotify_add_watch st p).2.inotify_fd = st.inotify_fd := by
  unfold inotify_add_watch
  split
  · split <;> rfl
  · rfl

theorem add_watch_watch (st : State) (p : String) :
    (inotify_add_watch st p).2.watch = st.watch := by
  unfold inotify_add_watch
  split
  · split <;> rfl
  · rfl

theorem add_watch_watch_old (st : State) (p : String) :
    (inotify_add_watch st p).2.watch_old = st.watch_old := by
  unfold inotify_add_watch
  split
  · split <;> rfl
  · rfl

/-- What `udev_watch_begin` does when the channel is up, the device has a
major number, the identity path is not empty and the entry path fits: the
kernel call, then the entry named after `wd` is replaced. -/
theorem begin_of_fits (S : Nat) (udev : Udev) (st : State) (dev : Device)
    (hfd : 0 ≤ st.inotify_fd) (hmaj : dev.devnum_major ≠ 0) (hsys : dev.syspath ≠ "")
    (hfit : fits S udev (sprintf_d (inotify_add_watch st dev.devnode).1)) :
    udev_watch_begin S udev st dev =
      { (inotify_add_watch st dev.devnode).2 with
        watch := some (((st.watch.getD []).filter
            (fun e => e.1 ≠ sprintf_d (inotify_add_watch st dev.devnode).1))
          ++ [(sprintf_d (inotify_add_watch st dev.devnode).1, Node.link dev.syspath)]) } := by
  unfold udev_watch_begin
  have h1 : ¬ (st.inotify_fd < 0 ∨ dev.devnum_major = 0) := by
    intro h; rcases h with h | h
    · omega
    · exact hmaj h
  rw [if_neg h1]
  have hr := resolve_filename S udev _ hfit
  simp only []
  unfold symlink unlink util_create_path
  rw [if_neg hsys]
  simp only [hr, add_watch_watch]
  unfold dir_symlink
  simp only [Option.map_some', lookup_filter_self, Option.isSome_none, Bool.false_eq_true,
    if_false]

theorem end_of_fits (S : Nat) (udev : Udev) (st : State) (wd : Int)
    (hfd : 0 ≤ st.inotify_fd) (hwd : 0 ≤ wd) (hfit : fits S udev (sprintf_d wd)) :
    udev_watch_end S udev st wd =
      { st with
        watches := st.watches.filter (fun e => (e.1 : Int) ≠ wd)
        watch := st.watch.map (fun d => d.filter (fun e => e.1 ≠ sprintf_d wd)) } := by
  unfold udev_watch_end
  have h1 : ¬ (st.inotify_fd < 0 ∨ wd < 0) := by
    intro h; rcases h with h | h <;> omega
  rw [if_neg h1]
  simp only []
  unfold unlink inotify_rm_watch
  simp only [resolve_filename S udev wd hfit]

theorem lookup_of_fits (S : Nat) (udev : Udev) (st : State) (wd : Int)
    (hfd : 0 ≤ st.inotify_fd) (hwd : 0 ≤ wd) (hfit : fits S udev (sprintf_d wd)) :
    udev_watch_lookup S udev st wd =
      match watch_node st (sprintf_d wd) with
      | some (Node.link t) => if 0 < min t.length S then some ⟨t.data.take S⟩ else none
      | _ => none := by
  unfold udev_watch_lookup
  have h1 : ¬ (st.inotify_fd < 0 ∨ wd < 0) := by
    intro h; rcases h with h | h <;> omega
  rw [if_neg h1]
  simp only []
  unfold readlink node_at watch_node
  simp only [resolve_filename S udev wd hfit]
  cases h : st.watch.bind (fun d => d.lookup (sprintf_d wd)) with
  | none => rfl
  | some nd =>
    cases nd with
    | file => rfl
    | link t =>
      simp only []
      by_cases h0 : 0 < min t.length S
      · rw [if_pos h0, if_pos]
        exact_mod_cast h0
      · rw [if_neg h0, if_neg]
        intro hc
        apply h0
        exact_mod_cast hc

theorem take_string_fits (s : String) (S : Nat) (h : s.length < S) :
    (⟨s.data.take S⟩ : String) = s := by
  apply String.ext_iff.mpr
  show s.data.take S = s.data
  apply List.take_of_length_le
  show s.length ≤ S
  omega

theorem string_length_pos (s : String) (h : s ≠ "") : 0 < s.length := by
  cases hd : s.data with
  | nil =>
    exfalso; apply h
    apply String.ext_iff.mpr
    rw [hd]
  | cons c cs =>
    show 0 < s.data.length
    rw [hd]; simp

theorem atoi_digits_bound (l : List Char) :
    ∀ acc, atoi_digits acc l + 1 ≤ (acc + 1) * 10 ^ l.length := by
  induction l with
  | nil => intro acc; simp [atoi_digits]
  | cons c cs ih =>
    intro acc
    unfold atoi_digits
    by_cases hc : isdigit c = true
    · rw [if_pos hc]
      have h1 := ih (acc * 10 + (c.toNat - 48))
      have hv : c.toNat - 48 ≤ 9 := by
        unfold isdigit at hc
        simp only [Bool.and_eq_true, decide_eq_true_eq] at hc
        have h2 : c.toNat ≤ 57 := hc.2
        omega
      have h3 : (acc * 10 + (c.toNat - 48) + 1) * 10 ^ cs.length
          ≤ ((acc + 1) * 10) * 10 ^ cs.length :=
        Nat.mul_le_mul_right _ (by omega)
      rw [List.length_cons, Nat.pow_succ]
      calc atoi_digits (acc * 10 + (c.toNat - 48)) cs + 1
          ≤ (acc * 10 + (c.toNat - 48) + 1) * 10 ^ cs.length := h1
        _ ≤ ((acc + 1) * 10) * 10 ^ cs.length := h3
        _ = (acc + 1) * (10 ^ cs.length * 10) := by ring
    · rw [if_neg hc]
      have : 1 ≤ 10 ^ (c :: cs).length := Nat.one_le_pow _ _ (by omega)
      calc acc + 1 = (acc + 1) * 1 := by ring
        _ ≤ (acc + 1) * 10 ^ (c :: cs).length := Nat.mul_le_mul_left _ this

theorem dec_spec_length (k : Nat) : ∀ n, 0 < k → n < 10 ^ k → (dec_spec n).length ≤ k := by
  induction k with
  | zero => intro n h; omega
  | succ k ih =>
    intro n _ hn
    rw [dec_spec]
    by_cases h10 : n < 10
    · rw [dif_pos h10]; simp
    · rw [dif_neg h10]
      have hk : 0 < k := by
        rcases Nat.eq_zero_or_pos k with h | h
        · subst h; simp at hn; omega
        · exact h
      have h2 : n / 10 < 10 ^ k := by
        rw [Nat.pow_succ] at hn
        exact Nat.div_lt_of_lt_mul (by rw [Nat.mul_comm]; exact hn)
      have := ih (n / 10) hk h2
      simp only [List.length_append, List.length_cons, List.length_nil]
      omega

theorem string_ne_of_digit (m : String) (h : starts_with_digit m = true) : m.data ≠ [] := by
  intro h0
  unfold starts_with_digit at h
  rw [h0] at h
  exact absurd h (by simp)

/-- Decoding a name with `atoi` and encoding it again with `%d` gives a name
that is not longer. -/
theorem sprintf_atoi_length (m : String) (h : starts_with_digit m = true) :
    (sprintf_d (atoi m)).length ≤ m.length := by
  rw [atoi_of_digit m h]
  show (sprintf_d ((atoi_digits 0 m.data : Nat) : Int)).data.length ≤ m.data.length
  rw [sprintf_d_nat]
  apply dec_spec_length
  · exact List.length_pos.mpr (string_ne_of_digit m h)
  · have := atoi_digits_bound m.data 0
    omega

theorem fits_sprintf_atoi (S : Nat) (udev : Udev) (m : String)
    (h : starts_with_digit m = true) (hf : fits S udev m) :
    fits S udev (sprintf_d (atoi m)) := by
  unfold fits at *
  have := sprintf_atoi_length m h
  omega

/-! ## The scan of `udev_watch_clear` when the paths fit -/

theorem thirteen : "/.udev/watch/".length = 13 := rfl

theorem watch_dir_length (udev : Udev) :
    (udev.dev_path.data ++ "/.udev/watch".data).length = udev.dev_path.length + 12 := by
  rw [List.length_append]
  rfl

theorem watch_entry_length (udev : Udev) (s : List Char) :
    (udev.dev_path.data ++ "/.udev/watch".data ++ '/' :: s).length
      = udev.dev_path.length + 13 + s.length := by
  rw [List.length_append, watch_dir_length, List.length_cons]
  omega

theorem clear_dir_of_fits (S : Nat) (udev : Udev) (m : String) (hf : fits S udev m) :
    util_strlcat (util_strlcpy udev.dev_path S) "/.udev/watch" S
      = ⟨udev.dev_path.data ++ "/.udev/watch".data⟩ := by
  rw [dir_path_data S udev "/.udev/watch", take_fits]
  unfold fits at hf
  rw [thirteen] at hf
  rw [watch_dir_length]
  omega

theorem scan_path_of_fits (S : Nat) (udev : Udev) (m : String) (hf : fits S udev m) :
    util_strlcat (util_strlcat (util_strlcpy
        (util_strlcat (util_strlcpy udev.dev_path S) "/.udev/watch" S) S) "/" S) m S
      = ⟨udev.dev_path.data ++ "/.udev/watch".data ++ '/' :: m.data⟩ := by
  rw [dir_path_data S udev "/.udev/watch", scan_path_data, scan_path_shape, take_fits]
  unfold fits at hf
  rw [thirteen] at hf
  rw [watch_entry_length]
  have h3 : m.length = m.data.length := rfl
  omega

theorem readlink_watch_entry (udev : Udev) (st : State) (path n : String) (S : Nat)
    (h : resolve udev path = some (Loc.watch_entry n)) :
    readlink udev st path S =
      match watch_node st n with
      | some (Node.link t) => (((min t.length S : Nat) : Int), ⟨t.data.take S⟩)
      | _ => (-1, "") := by
  unfold readlink node_at watch_node
  rw [h]

/-- One turn of the scan on a name that starts with a digit and whose path
fits. -/
theorem clear_loop_cons_of_fits (S : Nat) (udev : Udev) (dev : Device) (m : String)
    (rest : List String) (st : State) (hd : starts_with_digit m = true) (hf : fits S udev m) :
    clear_loop S udev dev (util_strlcat (util_strlcpy udev.dev_path S) "/.udev/watch" S)
        (m :: rest) st
      = if clear_match S st dev m then
          clear_loop S udev dev (util_strlcat (util_strlcpy udev.dev_path S) "/.udev/watch" S)
            rest (udev_watch_end S udev st (atoi m))
        else
          clear_loop S udev dev (util_strlcat (util_strlcpy udev.dev_path S) "/.udev/watch" S)
            rest st := by
  rw [clear_loop]
  simp only [hd, not_true_eq_false, if_false]
  rw [scan_path_of_fits S udev m hf]
  rw [readlink_watch_entry udev st _ m S (resolve_watch_entry udev m (string_ne_of_digit m hd))]
  unfold clear_match
  rcases hn : watch_node st m with _ | (t | _)
  · simp
  · simp only []
    by_cases h0 : 0 < min t.length S
    · have h0' : ¬ ((min t.length S : Nat) : Int) ≤ 0 := by
        intro hc; have : (min t.length S : Int) ≤ 0 := by exact_mod_cast hc
        omega
      rw [if_neg h0']
      by_cases h1 : (⟨t.data.take S⟩ : String) = dev.syspath
      · simp [h0, h1]
      · simp [h0, h1]
    · have h0' : ((min t.length S : Nat) : Int) ≤ 0 := by
        have : min t.length S = 0 := by omega
        rw [this]; simp
      rw [if_pos h0']
      simp [h0]
  · simp

theorem clear_loop_cons_skip (S : Nat) (udev : Udev) (dev : Device) (F m : String)
    (rest : List String) (st : State) (hd : starts_with_digit m = false) :
    clear_loop S udev dev F (m :: rest) st = clear_loop S udev dev F rest st := by
  rw [clear_loop]
  simp [hd]

theorem clear_of_fits (S : Nat) (udev : Udev) (st : State) (dev : Device) (d : Dir)
    (hfd : 0 ≤ st.inotify_fd) (hmaj : dev.devnum_major ≠ 0) (hw : st.watch = some d)
    (m : String) (hf : fits S udev m) :
    udev_watch_clear S udev st dev
      = clear_loop S udev dev (util_strlcat (util_strlcpy udev.dev_path S) "/.udev/watch" S)
          (d.map Prod.fst) st := by
  unfold udev_watch_clear
  have h1 : ¬ (st.inotify_fd < 0 ∨ dev.devnum_major = 0) := by
    intro h; rcases h with h | h
    · omega
    · exact hmaj h
  rw [if_neg h1]
  simp only []
  have hop : opendir udev st (util_strlcat (util_strlcpy udev.dev_path S) "/.udev/watch" S)
      = some ("." :: ".." :: d.map Prod.fst) := by
    unfold opendir
    rw [clear_dir_of_fits S udev m hf, resolve_watch_dir, hw]
    rfl
  rw [hop]
  simp only []
  rw [clear_loop_cons_skip _ _ _ _ _ _ _ (by decide), clear_loop_cons_skip _ _ _ _ _ _ _ (by decide)]

/-! ## `udev_watch_begin` followed by `udev_watch_clear` -/

theorem lookup_filter_none (d : Dir) (n k : String) (h : d.lookup n = none) :
    (d.filter (fun e => e.1 ≠ k)).lookup n = none := by
  by_cases hk : n = k
  · rw [hk]; exact lookup_filter_self d k
  · rw [lookup_filter_ne d k n hk]; exact h

theorem watch_node_end_none (S : Nat) (udev : Udev) (st : State) (w : Int) (n : String)
    (hfd : 0 ≤ st.inotify_fd) (hw : 0 ≤ w) (hfit : fits S udev (sprintf_d w))
    (h : watch_node st n = none) : watch_node (udev_watch_end S udev st w) n = none := by
  rw [end_of_fits S udev st w hfd hw hfit]
  unfold watch_node at *
  cases hd : st.watch with
  | none => rfl
  | some d =>
    rw [hd] at h
    simp only [Option.map_some', Option.some_bind] at h ⊢
    exact lookup_filter_none d n _ h

theorem watch_node_end_self (S : Nat) (udev : Udev) (st : State) (w : Int)
    (hfd : 0 ≤ st.inotify_fd) (hw : 0 ≤ w) (hfit : fits S udev (sprintf_d w)) :
    watch_node (udev_watch_end S udev st w) (sprintf_d w) = none := by
  rw [end_of_fits S udev st w hfd hw hfit]
  unfold watch_node
  cases hd : st.watch with
  | none => rfl
  | some d =>
    simp only [Option.map_some', Option.some_bind]
    exact lookup_filter_self d _

theorem watch_node_end_ne (S : Nat) (udev : Udev) (st : State) (w : Int) (n : String)
    (hfd : 0 ≤ st.inotify_fd) (hw : 0 ≤ w) (hfit : fits S udev (sprintf_d w))
    (hne : n ≠ sprintf_d w) : watch_node (udev_watch_end S udev st w) n = watch_node st n := by
  rw [end_of_fits S udev st w hfd hw hfit]
  unfold watch_node
  cases hd : st.watch with
  | none => rfl
  | some d =>
    simp only [Option.map_some', Option.some_bind]
    exact lookup_filter_ne d _ n hne

theorem end_fd (S : Nat) (udev : Udev) (st : State) (w : Int) :
    (udev_watch_end S udev st w).inotify_fd = st.inotify_fd := by
  unfold udev_watch_end
  split
  · rfl
  · simp only []
    unfold unlink inotify_rm_watch
    split <;> rfl

theorem not_live_end (S : Nat) (udev : Udev) (st : State) (w wd : Int)
    (h : ¬ live st wd) : ¬ live (udev_watch_end S udev st w) wd := by
  intro hl
  apply h
  unfold udev_watch_end at hl
  split at hl
  · exact hl
  · simp only [] at hl
    unfold unlink inotify_rm_watch at hl
    obtain ⟨e, he, hew⟩ := hl
    have he' : e ∈ st.watches.filter (fun e => (e.1 : Int) ≠ w) := by
      split at he <;> exact he
    exact ⟨e, (List.mem_filter.mp he').1, hew⟩

theorem not_live_end_self (S : Nat) (udev : Udev) (st : State) (w : Int)
    (hfd : 0 ≤ st.inotify_fd) (hw : 0 ≤ w) : ¬ live (udev_watch_end S udev st w) w := by
  intro hl
  unfold udev_watch_end at hl
  have h1 : ¬ (st.inotify_fd < 0 ∨ w < 0) := by
    intro h; rcases h with h | h <;> omega
  rw [if_neg h1] at hl
  simp only [] at hl
  unfold unlink inotify_rm_watch at hl
  obtain ⟨e, he, hew⟩ := hl
  have he' : e ∈ st.watches.filter (fun e => (e.1 : Int) ≠ w) := by
    split at he <;> exact he
  have := (List.mem_filter.mp he').2
  simp only [ne_eq, decide_not, Bool.not_eq_true', decide_eq_false_iff_not] at this
  exact this hew

theorem clear_loop_cleared (S : Nat) (udev : Udev) (dev : Device) (k : Nat) :
    ∀ (items : List String) (st : State),
      (∀ m ∈ items, fits S udev m) → 0 ≤ st.inotify_fd → cleared st k →
      cleared (clear_loop S udev dev
        (util_strlcat (util_strlcpy udev.dev_path S) "/.udev/watch" S) items st) k := by
  intro items
  induction items with
  | nil => intro st _ _ h; rw [clear_loop]; exact h
  | cons m rest ih =>
    intro st hfits hfd hc
    have hrest : ∀ x ∈ rest, fits S udev x := fun x hx => hfits x (List.mem_cons_of_mem _ hx)
    cases hd : starts_with_digit m with
    | false =>
      rw [clear_loop_cons_skip _ _ _ _ _ _ _ hd]
      exact ih st hrest hfd hc
    | true =>
      have hfm := hfits m (List.mem_cons_self _ _)
      rw [clear_loop_cons_of_fits S udev dev m rest st hd hfm]
      split
      · apply ih _ hrest
        · rw [end_fd]; exact hfd
        · exact ⟨watch_node_end_none S udev st _ _ hfd (atoi_nonneg m hd)
              (fits_sprintf_atoi S udev m hd hfm) hc.1,
            not_live_end S udev st _ _ hc.2⟩
      · exact ih st hrest hfd hc

theorem clear_loop_reaches (S : Nat) (udev : Udev) (dev : Device) (k : Nat)
    (hsys : dev.syspath ≠ "") (hlen : dev.syspath.length < S) :
    ∀ (items : List String) (st : State),
      (∀ m ∈ items, fits S udev m) → 0 ≤ st.inotify_fd → sprintf_d (k : Int) ∈ items →
      (watch_node st (sprintf_d (k : Int)) = some (Node.link dev.syspath) ∨ cleared st k) →
      cleared (clear_loop S udev dev
        (util_strlcat (util_strlcpy udev.dev_path S) "/.udev/watch" S) items st) k := by
  intro items
  induction items with
  | nil => intro st _ _ hmem; exact absurd hmem (by simp)
  | cons m rest ih =>
    intro st hfits hfd hmem hst
    have hrest : ∀ x ∈ rest, fits S udev x := fun x hx => hfits x (List.mem_cons_of_mem _ hx)
    have hfm := hfits m (List.mem_cons_self _ _)
    rcases hst with hgood | hdone
    · -- the entry is still there
      by_cases hmk : m = sprintf_d (k : Int)
      · -- this is its turn
        have hd : starts_with_digit m = true := by rw [hmk]; exact sprintf_d_starts_with_digit k
        rw [clear_loop_cons_of_fits S udev dev m rest st hd hfm]
        have hmatch : clear_match S st dev m = true := by
          unfold clear_match
          rw [hmk, hgood]
          simp only [Bool.and_eq_true, decide_eq_true_eq]
          have hp := string_length_pos _ hsys
          exact ⟨by omega, take_string_fits _ _ hlen⟩
        rw [if_pos hmatch]
        apply clear_loop_cleared S udev dev k rest _ hrest
        · rw [end_fd]; exact hfd
        · have ha : atoi m = (k : Int) := by rw [hmk]; exact atoi_sprintf_d k
          rw [ha]
          have hfk : fits S udev (sprintf_d (k : Int)) := by rw [← hmk]; exact hfm
          exact ⟨watch_node_end_self S udev st _ hfd (Int.ofNat_nonneg k) hfk,
            not_live_end_self S udev st _ hfd (Int.ofNat_nonneg k)⟩
      · have hmem' : sprintf_d (k : Int) ∈ rest := by
          rcases List.mem_cons.mp hmem with h | h
          · exact absurd h.symm hmk
          · exact h
        cases hd : starts_with_digit m with
        | false =>
          rw [clear_loop_cons_skip _ _ _ _ _ _ _ hd]
          exact ih st hrest hfd hmem' (Or.inl hgood)
        | true =>
          rw [clear_loop_cons_of_fits S udev dev m rest st hd hfm]
          split
          · have hw := atoi_nonneg m hd
            have hfw := fits_sprintf_atoi S udev m hd hfm
            apply ih _ hrest (by rw [end_fd]; exact hfd) hmem'
            by_cases hsame : sprintf_d (k : Int) = sprintf_d (atoi m)
            · right
              have hk : atoi m = (k : Int) := by
                rw [atoi_of_digit m hd] at hsame ⊢
                have := sprintf_d_injective _ _ hsame
                rw [this]
              rw [hk]
              have hfk : fits S udev (sprintf_d (k : Int)) := by rw [← hk]; exact hfw
              exact ⟨watch_node_end_self S udev st _ hfd (Int.ofNat_nonneg k) hfk,
                not_live_end_self S udev st _ hfd (Int.ofNat_nonneg k)⟩
            · left
              rw [watch_node_end_ne S udev st _ _ hfd hw hfw hsame]
              exact hgood
          · exact ih st hrest hfd hmem' (Or.inl hgood)
    · exact clear_loop_cleared S udev dev k (m :: rest) st hfits hfd hdone

theorem clear_loop_fd (S : Nat) (udev : Udev) (dev : Device) (F : String) :
    ∀ (items : List String) (st : State),
      (clear_loop S udev dev F items st).inotify_fd = st.inotify_fd := by
  intro items
  induction items with
  | nil => intro st; rw [clear_loop]
  | cons m rest ih =>
    intro st
    rw [clear_loop]
    split
    · exact ih st
    · simp only []
      split
      · exact ih st
      · split
        · exact ih st
        · rw [ih, end_fd]

theorem not_live_neg (st : State) (wd : Int) (h : wd < 0) : ¬ live st wd := by
  rintro ⟨e, _, he⟩
  have : (0 : Int) ≤ (e.1 : Int) := Int.ofNat_nonneg _
  omega

theorem live_end_ne (S : Nat) (udev : Udev) (st : State) (w wd : Int)
    (hfd : 0 ≤ st.inotify_fd) (hw : 0 ≤ w) (hfit : fits S udev (sprintf_d w))
    (hne : wd ≠ w) (h : live st wd) : live (udev_watch_end S udev st w) wd := by
  rw [end_of_fits S udev st w hfd hw hfit]
  obtain ⟨e, he, hew⟩ := h
  refine ⟨e, ?_, hew⟩
  show e ∈ st.watches.filter (fun e => (e.1 : Int) ≠ w)
  rw [List.mem_filter]
  refine ⟨he, ?_⟩
  simp only [ne_eq, decide_not, Bool.not_eq_true', decide_eq_false_iff_not]
  rw [hew]; exact hne

theorem watch_node_end_some (S : Nat) (udev : Udev) (st : State) (w : Int) (n : String) (x : Node)
    (hfd : 0 ≤ st.inotify_fd) (hw : 0 ≤ w) (hfit : fits S udev (sprintf_d w))
    (h : watch_node (udev_watch_end S udev st w) n = some x) : watch_node st n = some x := by
  by_cases hn : n = sprintf_d w
  · rw [hn, watch_node_end_self S udev st w hfd hw hfit] at h
    exact absurd h (by simp)
  · rw [watch_node_end_ne S udev st w n hfd hw hfit hn] at h
    exact h

/-- When the buffer test of the scan succeeds on a short identity path, the
entry is a link to exactly that path. -/
theorem clear_match_target (S : Nat) (st : State) (dev : Device) (m : String)
    (hlen : dev.syspath.length < S) (h : clear_match S st dev m = true) :
    watch_node st m = some (Node.link dev.syspath) := by
  unfold clear_match at h
  rcases hn : watch_node st m with _ | (t | _)
  · rw [hn] at h; exact absurd h (by simp)
  · rw [hn] at h
    simp only [Bool.and_eq_true, decide_eq_true_eq] at h
    obtain ⟨_, h2⟩ := h
    have h3 : (t.data.take S).length = dev.syspath.length := by
      rw [← h2]; rfl
    rw [List.length_take] at h3
    have h4 : t.data.length ≤ S := by
      have : dev.syspath.length < S := hlen
      omega
    have h5 : t.data.take S = t.data := List.take_of_length_le h4
    rw [h5] at h2
    have : t = dev.syspath := by rw [← h2]
    rw [this]
  · rw [hn] at h; exact absurd h (by simp)

theorem mem_of_lookup {d : Dir} {n : String} {x : Node} (h : d.lookup n = some x) :
    (n, x) ∈ d := by
  induction d with
  | nil => exact absurd h (by simp)
  | cons e d ih =>
    obtain ⟨k, v⟩ := e
    rw [List.lookup_cons] at h
    by_cases hk : (n == k) = true
    · rw [hk] at h
      simp only [Option.some.injEq] at h
      have : n = k := by simpa using hk
      rw [this, h]; exact List.mem_cons_self _ _
    · have hk' : (n == k) = false := by simpa using hk
      rw [hk'] at h
      exact List.mem_cons_of_mem _ (ih h)

theorem mem_of_watch_node {st : State} {n : String} {x : Node} (h : watch_node st n = some x) :
    (n, x) ∈ st.watch.getD [] := by
  unfold watch_node at h
  cases hd : st.watch with
  | none => rw [hd] at h; exact absurd h (by simp)
  | some d =>
    rw [hd] at h
    exact mem_of_lookup h

theorem clear_loop_kept (S : Nat) (udev : Udev) (st : State) (dev : Device)
    (hlen : dev.syspath.length < S)
    (hcanon : ∀ m, starts_with_digit m = true →
      watch_node st m = some (Node.link dev.syspath) →
      ∃ k : Nat, k < 2 ^ 31 ∧ m = sprintf_d (k : Int))
    (name : String) (node : Node) (hne : node ≠ Node.link dev.syspath) :
    ∀ (items : List String) (cur : State),
      (∀ m ∈ items, fits S udev m) → 0 ≤ cur.inotify_fd → kept st cur name node →
      kept st (clear_loop S udev dev
        (util_strlcat (util_strlcpy udev.dev_path S) "/.udev/watch" S) items cur) name node := by
  intro items
  induction items with
  | nil => intro cur _ _ h; rw [clear_loop]; exact h
  | cons m rest ih =>
    intro cur hfits hfd hk
    have hrest : ∀ x ∈ rest, fits S udev x := fun x hx => hfits x (List.mem_cons_of_mem _ hx)
    cases hd : starts_with_digit m with
    | false =>
      rw [clear_loop_cons_skip _ _ _ _ _ _ _ hd]
      exact ih cur hrest hfd hk
    | true =>
      have hfm := hfits m (List.mem_cons_self _ _)
      rw [clear_loop_cons_of_fits S udev dev m rest cur hd hfm]
      split
      · rename_i hmatch
        have hcur := clear_match_target S cur dev m hlen hmatch
        obtain ⟨k, _, hmk⟩ := hcanon m hd (hk.1 m _ hcur)
        have ha : atoi m = (k : Int) := by rw [hmk]; exact atoi_sprintf_d k
        have hfk : fits S udev (sprintf_d (k : Int)) := by rw [← hmk]; exact hfm
        have hnm : name ≠ sprintf_d (k : Int) := by
          intro hc
          rw [← hmk] at hc
          have h2 := hk.2.1
          rw [hc, hcur] at h2
          simp only [Option.some.injEq] at h2
          exact hne h2.symm
        apply ih _ hrest (by rw [end_fd]; exact hfd)
        rw [ha]
        refine ⟨?_, ?_, ?_⟩
        · intro m' x hx
          exact hk.1 m' x (watch_node_end_some S udev cur _ m' x hfd (Int.ofNat_nonneg k) hfk hx)
        · rw [watch_node_end_ne S udev cur _ name hfd (Int.ofNat_nonneg k) hfk hnm]
          exact hk.2.1
        · intro k' hk' hl
          apply live_end_ne S udev cur _ _ hfd (Int.ofNat_nonneg k) hfk _ (hk.2.2 k' hk' hl)
          intro hc
          apply hnm
          rw [hk']
          have : k' = k := by exact_mod_cast hc
          rw [this]
      · exact ih cur hrest hfd hk

theorem clear_keeps_core (UTIL_PATH_SIZE : Nat) (udev : Udev) (st : State) (dev : Device)
    (hfd : 0 ≤ st.inotify_fd) (hmaj : dev.devnum_major ≠ 0)
    (hlen : dev.syspath.length < UTIL_PATH_SIZE)
    (hdir : ∀ e ∈ st.watch.getD [], fits UTIL_PATH_SIZE udev e.1)
    (hcanon : ∀ m, starts_with_digit m = true →
      watch_node st m = some (Node.link dev.syspath) →
      ∃ k : Nat, k < 2 ^ 31 ∧ m = sprintf_d (k : Int))
    (name : String) (node : Node)
    (hnode : watch_node st name = some node) (hne : node ≠ Node.link dev.syspath) :
    watch_node (udev_watch_clear UTIL_PATH_SIZE udev st dev) name = some node
    ∧ ∀ k : Nat, name = sprintf_d (k : Int) → live st (k : Int) →
        live (udev_watch_clear UTIL_PATH_SIZE udev st dev) (k : Int) := by
  have hmem := mem_of_watch_node hnode
  cases hw : st.watch with
  | none =>
    unfold watch_node at hnode
    rw [hw] at hnode
    exact absurd hnode (by simp)
  | some d =>
    rw [hw] at hmem hdir
    have hfn : fits UTIL_PATH_SIZE udev name := hdir _ hmem
    rw [clear_of_fits UTIL_PATH_SIZE udev st dev d hfd hmaj hw name hfn]
    have hitems : ∀ m ∈ d.map Prod.fst, fits UTIL_PATH_SIZE udev m := by
      intro m hm
      obtain ⟨e, he, rfl⟩ := List.mem_map.mp hm
      exact hdir e he
    have := clear_loop_kept UTIL_PATH_SIZE udev st dev hlen hcanon name node hne
      (d.map Prod.fst) st hitems hfd ⟨fun _ _ h => h, hnode, fun _ _ h => h⟩
    exact ⟨this.2.1, this.2.2⟩

/-! ## Entries whose name does not start with a digit -/

theorem filter_comm (d : Dir) (a b : String) :
    (d.filter (fun e => e.1 ≠ a)).filter (fun e => e.1 ≠ b)
      = (d.filter (fun e => e.1 ≠ b)).filter (fun e => e.1 ≠ a) := by
  rw [List.filter_filter, List.filter_filter]
  congr 1
  funext e
  exact Bool.and_comm _ _

theorem without_watch_comm (a b : String) (st : State) :
    without_watch a (without_watch b st) = without_watch b (without_watch a st) := by
  unfold without_watch
  cases h : st.watch with
  | none => rfl
  | some d => simp only [Option.map_some', filter_comm d b a]

theorem without_old_comm (a b : String) (st : State) :
    without_old a (without_old b st) = without_old b (without_old a st) := by
  unfold without_old
  cases h : st.watch_old with
  | none => rfl
  | some d => simp only [Option.map_some', filter_comm d b a]

theorem watch_node_without_ne (a n : String) (st : State) (h : n ≠ a) :
    watch_node (without_watch a st) n = watch_node st n := by
  unfold watch_node without_watch
  cases hd : st.watch with
  | none => rfl
  | some d =>
    simp only [Option.map_some', Option.some_bind]
    exact lookup_filter_ne d a n h

theorem old_node_without_ne (a n : String) (st : State) (h : n ≠ a) :
    old_node (without_old a st) n = old_node st n := by
  unfold old_node without_old
  cases hd : st.watch_old with
  | none => rfl
  | some d =>
    simp only [Option.map_some', Option.some_bind]
    exact lookup_filter_ne d a n h

theorem slash_shape (x s : List Char) : x ++ "/".data ++ s = x ++ '/' :: s := by
  have : "/".data = ['/'] := rfl
  rw [this]
  simp

theorem ne_of_digit {n name : String} (hn : starts_with_digit n = true)
    (hname : starts_with_digit name = false) : n ≠ name := by
  intro h; rw [h, hname] at hn; exact absurd hn (by simp)

/-- The path of a watch entry, cut or not, leads to the watch directory or
to an entry named by a beginning of the rendered descriptor. -/
theorem resolve_filename_cases (S : Nat) (udev : Udev) (wd : Int) :
    resolve udev (udev_watch_filename S udev wd) = none
    ∨ resolve udev (udev_watch_filename S udev wd) = some Loc.watch_dir
    ∨ ∃ n : String, resolve udev (udev_watch_filename S udev wd) = some (Loc.watch_entry n)
        ∧ n.data ≠ [] ∧ n.data <+: (sprintf_d wd).data := by
  rw [filename_data, watch_path_shape]
  exact resolve_cut_watch udev _ _

theorem resolve_filename_digit (S : Nat) (udev : Udev) (k : Nat) (n : String)
    (h : resolve udev (udev_watch_filename S udev (k : Int)) = some (Loc.watch_entry n)) :
    starts_with_digit n = true := by
  rcases resolve_filename_cases S udev (k : Int) with h1 | h1 | ⟨n', h1, hn, hp⟩
  · rw [h1] at h; exact absurd h (by simp)
  · rw [h1] at h; exact absurd h (by simp)
  · rw [h1] at h
    simp only [Option.some.injEq, Loc.watch_entry.injEq] at h
    subst h
    exact digit_of_beginning _ _ hn hp (sprintf_d_starts_with_digit k)

/-- The path the scan of `udev_watch_clear` builds for a name. -/
theorem resolve_scan_cases (S : Nat) (udev : Udev) (m : String) :
    resolve udev (util_strlcat (util_strlcat (util_strlcpy
        (util_strlcat (util_strlcpy udev.dev_path S) "/.udev/watch" S) S) "/" S) m S) = none
    ∨ resolve udev (util_strlcat (util_strlcat (util_strlcpy
        (util_strlcat (util_strlcpy udev.dev_path S) "/.udev/watch" S) S) "/" S) m S)
        = some Loc.watch_dir
    ∨ ∃ n : String, resolve udev (util_strlcat (util_strlcat (util_strlcpy
        (util_strlcat (util_strlcpy udev.dev_path S) "/.udev/watch" S) S) "/" S) m S)
        = some (Loc.watch_entry n) ∧ n.data ≠ [] ∧ n.data <+: m.data := by
  rw [dir_path_data S udev "/.udev/watch", scan_path_data, scan_path_shape]
  exact resolve_cut_watch udev _ _

/-- The path the scan of `udev_watch_restore` builds for a name. -/
theorem resolve_replay_cases (S : Nat) (udev : Udev) (m : String) :
    resolve udev (util_strlcat (util_strlcat (util_strlcpy
        (util_strlcat (util_strlcpy udev.dev_path S) "/.udev/watch.old" S) S) "/" S) m S) = none
    ∨ resolve udev (util_strlcat (util_strlcat (util_strlcpy
        (util_strlcat (util_strlcpy udev.dev_path S) "/.udev/watch.old" S) S) "/" S) m S)
        = some Loc.watch_dir
    ∨ resolve udev (util_strlcat (util_strlcat (util_strlcpy
        (util_strlcat (util_strlcpy udev.dev_path S) "/.udev/watch.old" S) S) "/" S) m S)
        = some Loc.old_dir
    ∨ ∃ n : String, resolve udev (util_strlcat (util_strlcat (util_strlcpy
        (util_strlcat (util_strlcpy udev.dev_path S) "/.udev/watch.old" S) S) "/" S) m S)
        = some (Loc.old_entry n) ∧ n.data ≠ [] ∧ n.data <+: m.data := by
  rw [dir_path_data S udev "/.udev/watch.old", scan_path_data, old_suffix_data,
    ← List.append_assoc, slash_shape]
  exact resolve_cut_old udev _ _

theorem unlink_eq (udev : Udev) (st : State) (path : String) :
    unlink udev st path =
      match resolve udev path with
      | some (Loc.watch_entry n) => without_watch n st
      | some (Loc.old_entry n) => without_old n st
      | _ => st := by
  unfold unlink without_watch without_old
  rfl

theorem rm_watch_without_watch (name : String) (st : State) (w : Int) :
    inotify_rm_watch (without_watch name st) w = without_watch name (inotify_rm_watch st w) := rfl

/-- Taking an entry out of the watch directory before or after
`udev_watch_end` makes no difference. -/
theorem end_without_watch (S : Nat) (udev : Udev) (st : State) (w : Int) (name : String) :
    udev_watch_end S udev (without_watch name st) w
      = without_watch name (udev_watch_end S udev st w) := by
  unfold udev_watch_end
  have hfd : (without_watch name st).inotify_fd = st.inotify_fd := rfl
  rw [hfd]
  by_cases h : st.inotify_fd < 0 ∨ w < 0
  · rw [if_pos h, if_pos h]
  · rw [if_neg h, if_neg h]
    simp only []
    rw [unlink_eq, unlink_eq, rm_watch_without_watch]
    rcases hr : resolve udev (udev_watch_filename S udev w) with _ | l
    · rfl
    · cases l with
      | watch_dir => rfl
      | old_dir => rfl
      | watch_entry n => exact without_watch_comm n name _
      | old_entry n => rfl

theorem end_watch_node (S : Nat) (udev : Udev) (st : State) (w : Int) (name : String)
    (hname : starts_with_digit name = false) :
    watch_node (udev_watch_end S udev st w) name = watch_node st name := by
  unfold udev_watch_end
  by_cases h : st.inotify_fd < 0 ∨ w < 0
  · rw [if_pos h]
  · rw [if_neg h]
    simp only []
    rw [unlink_eq]
    obtain ⟨k, hk⟩ := Int.eq_ofNat_of_zero_le (show 0 ≤ w by omega)
    subst hk
    rcases hr : resolve udev (udev_watch_filename S udev (k : Int)) with _ | l
    · rfl
    · cases l with
      | watch_dir => rfl
      | old_dir => rfl
      | watch_entry n =>
        have hn := resolve_filename_digit S udev k n hr
        exact watch_node_without_ne n name _ (ne_of_digit hn hname).symm
      | old_entry n => rfl

theorem readlink_without_watch (udev : Udev) (st : State) (path name : String) (S : Nat)
    (h : ∀ n, resolve udev path = some (Loc.watch_entry n) → n ≠ name) :
    readlink udev (without_watch name st) path S = readlink udev st path S := by
  unfold readlink node_at
  rcases hr : resolve udev path with _ | l
  · rfl
  · cases l with
    | watch_dir => rfl
    | old_dir => rfl
    | watch_entry n =>
      have := watch_node_without_ne name n st (h n hr)
      unfold watch_node at this
      simp only [this]
    | old_entry n => rfl

theorem readlink_without_old (udev : Udev) (st : State) (path name : String) (S : Nat)
    (h : ∀ n, resolve udev path = some (Loc.old_entry n) → n ≠ name) :
    readlink udev (without_old name st) path S = readlink udev st path S := by
  unfold readlink node_at
  rcases hr : resolve udev path with _ | l
  · rfl
  · cases l with
    | watch_dir => rfl
    | old_dir => rfl
    | watch_entry n => rfl
    | old_entry n =>
      have := old_node_without_ne name n st (h n hr)
      unfold old_node at this
      simp only [this]

theorem scan_target_ne (S : Nat) (udev : Udev) (m name : String)
    (hm : starts_with_digit m = true) (hname : starts_with_digit name = false) :
    ∀ n, resolve udev (util_strlcat (util_strlcat (util_strlcpy
        (util_strlcat (util_strlcpy udev.dev_path S) "/.udev/watch" S) S) "/" S) m S)
      = some (Loc.watch_entry n) → n ≠ name := by
  intro n hr
  rcases resolve_scan_cases S udev m with h1 | h1 | ⟨n', h1, hn, hp⟩
  · rw [h1] at hr; exact absurd hr (by simp)
  · rw [h1] at hr; exact absurd hr (by simp)
  · rw [h1] at hr
    simp only [Option.some.injEq, Loc.watch_entry.injEq] at hr
    subst hr
    exact ne_of_digit (digit_of_beginning _ _ hn hp hm) hname

/-- The scan of `udev_watch_clear` runs the same with or without an entry
whose name does not start with a digit. -/
theorem clear_loop_without (S : Nat) (udev : Udev) (dev : Device) (name : String)
    (hname : starts_with_digit name = false) :
    ∀ (items : List String) (st : State),
      clear_loop S udev dev (util_strlcat (util_strlcpy udev.dev_path S) "/.udev/watch" S)
          items (without_watch name st)
        = without_watch name (clear_loop S udev dev
            (util_strlcat (util_strlcpy udev.dev_path S) "/.udev/watch" S) items st) := by
  intro items
  induction items with
  | nil => intro st; rw [clear_loop, clear_loop]
  | cons m rest ih =>
    intro st
    cases hd : starts_with_digit m with
    | false =>
      rw [clear_loop_cons_skip _ _ _ _ _ _ _ hd, clear_loop_cons_skip _ _ _ _ _ _ _ hd]
      exact ih st
    | true =>
      rw [clear_loop, clear_loop]
      simp only [hd, not_true_eq_false, if_false]
      rw [readlink_without_watch udev st _ name S (scan_target_ne S udev m name hd hname)]
      split
      · exact ih st
      · split
        · exact ih st
        · rw [end_without_watch]
          exact ih _

/-- The scan of `udev_watch_clear` leaves an entry whose name does not start
with a digit as it is. -/
theorem clear_loop_watch_node (S : Nat) (udev : Udev) (dev : Device) (F name : String)
    (hname : starts_with_digit name = false) :
    ∀ (items : List String) (st : State),
      watch_node (clear_loop S udev dev F items st) name = watch_node st name := by
  intro items
  induction items with
  | nil => intro st; rw [clear_loop]
  | cons m rest ih =>
    intro st
    rw [clear_loop]
    split
    · exact ih st
    · simp only []
      split
      · exact ih st
      · split
        · exact ih st
        · rw [ih, end_watch_node S udev st _ name hname]

theorem clear_loop_filter (S : Nat) (udev : Udev) (dev : Device) (F name : String)
    (hname : starts_with_digit name = false) :
    ∀ (items : List String) (st : State),
      clear_loop S udev dev F (items.filter (fun m => m ≠ name)) st
        = clear_loop S udev dev F items st := by
  intro items
  induction items with
  | nil => intro st; rfl
  | cons m rest ih =>
    intro st
    by_cases hm : m = name
    · rw [List.filter_cons_of_neg (by simp [hm])]
      rw [clear_loop_cons_skip _ _ _ _ _ _ _ (by rw [hm]; exact hname)]
      exact ih st
    · rw [List.filter_cons_of_pos (by simp [hm])]
      rw [clear_loop, clear_loop]
      simp only [ih]

theorem map_fst_filter (d : Dir) (name : String) :
    (d.filter (fun e => e.1 ≠ name)).map Prod.fst
      = (d.map Prod.fst).filter (fun m => m ≠ name) := by
  induction d with
  | nil => rfl
  | cons e d ih =>
    by_cases he : e.1 = name
    · rw [List.filter_cons_of_neg (by simp [he]), List.map_cons,
        List.filter_cons_of_neg (by simp [he])]
      exact ih
    · rw [List.filter_cons_of_pos (by simp [he]), List.map_cons, List.map_cons,
        List.filter_cons_of_pos (by simp [he]), ih]

theorem clear_without (S : Nat) (udev : Udev) (st : State) (dev : Device) (name : String)
    (hname : starts_with_digit name = false) :
    udev_watch_clear S udev (without_watch name st) dev
      = without_watch name (udev_watch_clear S udev st dev) := by
  unfold udev_watch_clear
  have hfd : (without_watch name st).inotify_fd = st.inotify_fd := rfl
  rw [hfd]
  by_cases h : st.inotify_fd < 0 ∨ dev.devnum_major = 0
  · rw [if_pos h, if_pos h]
  · rw [if_neg h, if_neg h]
    simp only []
    unfold opendir
    rcases hr : resolve udev (util_strlcat (util_strlcpy udev.dev_path S) "/.udev/watch" S)
      with _ | l
    · rfl
    · cases l with
      | watch_dir =>
        simp only []
        cases hw : st.watch with
        | none =>
          have : (without_watch name st).watch = none := by
            unfold without_watch; rw [hw]; rfl
          rw [this]; rfl
        | some d =>
          have : (without_watch name st).watch
              = some (d.filter (fun e => e.1 ≠ name)) := by
            unfold without_watch; rw [hw]; rfl
          rw [this]
          simp only [Option.map_some']
          rw [clear_loop_cons_skip _ _ _ _ _ _ _ (by decide),
            clear_loop_cons_skip _ _ _ _ _ _ _ (by decide),
            clear_loop_cons_skip _ _ _ _ _ _ _ (by decide),
            clear_loop_cons_skip _ _ _ _ _ _ _ (by decide)]
          rw [map_fst_filter, clear_loop_filter S udev dev _ name hname]
          exact clear_loop_without S udev dev name hname _ st
      | old_dir =>
        simp only []
        have : (without_watch name st).watch_old = st.watch_old := rfl
        rw [this]
        cases hw : st.watch_old with
        | none => rfl
        | some d =>
          simp only [Option.map_some']
          exact clear_loop_without S udev dev name hname _ st
      | watch_entry n => rfl
      | old_entry n => rfl

theorem clear_watch_node (S : Nat) (udev : Udev) (st : State) (dev : Device) (name : String)
    (hname : starts_with_digit name = false) :
    watch_node (udev_watch_clear S udev st dev) name = watch_node st name := by
  unfold udev_watch_clear
  split
  · rfl
  · simp only []
    split
    · rfl
    · exact clear_loop_watch_node S udev dev _ name hname _ st

/-! ## The replay loop and the entries it skips -/

theorem add_watch_without_old (name : String) (st : State) (p : String) :
    inotify_add_watch (without_old name st) p
      = ((inotify_add_watch st p).1, without_old name (inotify_add_watch st p).2) := by
  unfold inotify_add_watch
  have h1 : (without_old name st).nodes = st.nodes := rfl
  have h2 : (without_old name st).watches = st.watches := rfl
  rw [h1, h2]
  split
  · split <;> rfl
  · rfl

theorem filename_not_old (S : Nat) (udev : Udev) (wd : Int) :
    ∀ n, resolve udev (udev_watch_filename S udev wd) ≠ some (Loc.old_entry n) := by
  intro n h
  rcases resolve_filename_cases S udev wd with h1 | h1 | ⟨n', h1, _, _⟩ <;>
  · rw [h1] at h; exact absurd h (by simp)

theorem create_path_without_old (udev : Udev) (st : State) (path name : String)
    (h : ∀ n, resolve udev path ≠ some (Loc.old_entry n)) :
    util_create_path udev (without_old name st) path
      = without_old name (util_create_path udev st path) := by
  unfold util_create_path
  rcases hr : resolve udev path with _ | l
  · rfl
  · cases l with
    | watch_dir => rfl
    | old_dir => rfl
    | watch_entry n => rfl
    | old_entry n => exact absurd hr (h n)

theorem unlink_without_old (udev : Udev) (st : State) (path name : String) :
    unlink udev (without_old name st) path = without_old name (unlink udev st path) := by
  rw [unlink_eq, unlink_eq]
  rcases hr : resolve udev path with _ | l
  · rfl
  · cases l with
    | watch_dir => rfl
    | old_dir => rfl
    | watch_entry n => rfl
    | old_entry n => exact without_old_comm n name st

theorem symlink_without_old (udev : Udev) (st : State) (target path name : String)
    (h : ∀ n, resolve udev path ≠ some (Loc.old_entry n)) :
    symlink udev (without_old name st) target path
      = without_old name (symlink udev st target path) := by
  unfold symlink
  split
  · rfl
  · rcases hr : resolve udev path with _ | l
    · rfl
    · cases l with
      | watch_dir => rfl
      | old_dir => rfl
      | watch_entry n => rfl
      | old_entry n => exact absurd hr (h n)

/-- Taking an entry out of `watch.old` before or after `udev_watch_begin`
makes no difference. -/
theorem begin_without_old (S : Nat) (udev : Udev) (st : State) (dev : Device) (name : String) :
    udev_watch_begin S udev (without_old name st) dev
      = without_old name (udev_watch_begin S udev st dev) := by
  unfold udev_watch_begin
  have hfd : (without_old name st).inotify_fd = st.inotify_fd := rfl
  rw [hfd]
  by_cases h : st.inotify_fd < 0 ∨ dev.devnum_major = 0
  · rw [if_pos h, if_pos h]
  · rw [if_neg h, if_neg h]
    rw [add_watch_without_old]
    simp only []
    have hno := filename_not_old S udev (inotify_add_watch st dev.devnode).1
    rw [create_path_without_old _ _ _ _ hno, unlink_without_old,
      symlink_without_old _ _ _ _ _ hno]

theorem old_node_eq_of_watch_old {a b : State} (h : a.watch_old = b.watch_old) (name : String) :
    old_node a name = old_node b name := by
  unfold old_node; rw [h]

theorem begin_watch_old (S : Nat) (udev : Udev) (st : State) (dev : Device) :
    (udev_watch_begin S udev st dev).watch_old = st.watch_old := by
  unfold udev_watch_begin
  split
  · rfl
  · simp only []
    have hno := filename_not_old S udev (inotify_add_watch st dev.devnode).1
    unfold symlink unlink util_create_path
    rcases hr : resolve udev (udev_watch_filename S udev (inotify_add_watch st dev.devnode).1)
      with _ | l
    · simp only []
      split <;> exact add_watch_watch_old st _
    · cases l with
      | watch_dir => simp only []; split <;> exact add_watch_watch_old st _
      | old_dir => simp only []; split <;> exact add_watch_watch_old st _
      | watch_entry n => simp only []; split <;> exact add_watch_watch_old st _
      | old_entry n => exact absurd hr (hno n)

theorem replay_target_ne (S : Nat) (udev : Udev) (m name : String)
    (hm : starts_with_digit m = true) (hname : starts_with_digit name = false) :
    ∀ n, resolve udev (util_strlcat (util_strlcat (util_strlcpy
        (util_strlcat (util_strlcpy udev.dev_path S) "/.udev/watch.old" S) S) "/" S) m S)
      = some (Loc.old_entry n) → n ≠ name := by
  intro n hr
  rcases resolve_replay_cases S udev m with h1 | h1 | h1 | ⟨n', h1, hn, hp⟩
  · rw [h1] at hr; exact absurd hr (by simp)
  · rw [h1] at hr; exact absurd hr (by simp)
  · rw [h1] at hr; exact absurd hr (by simp)
  · rw [h1] at hr
    simp only [Option.some.injEq, Loc.old_entry.injEq] at hr
    subst hr
    exact ne_of_digit (digit_of_beginning _ _ hn hp hm) hname

theorem restore_loop_cons_skip (S : Nat) (udev : Udev) (F m : String)
    (rest : List String) (st : State) (hd : starts_with_digit m = false) :
    restore_loop S udev F (m :: rest) st = restore_loop S udev F rest st := by
  rw [restore_loop]
  simp [hd]

theorem sysfs_without_old (name : String) (st : State) (p : String) :
    udev_device_new_from_syspath (without_old name st) p = udev_device_new_from_syspath st p :=
  rfl

/-- The replay loop of `udev_watch_restore` runs the same with or without an
entry whose name does not start with a digit. -/
theorem restore_loop_without (S : Nat) (udev : Udev) (name : String)
    (hname : starts_with_digit name = false) :
    ∀ (items : List String) (st : State),
      restore_loop S udev (util_strlcat (util_strlcpy udev.dev_path S) "/.udev/watch.old" S)
          items (without_old name st)
        = without_old name (restore_loop S udev
            (util_strlcat (util_strlcpy udev.dev_path S) "/.udev/watch.old" S) items st) := by
  intro items
  induction items with
  | nil => intro st; rw [restore_loop, restore_loop]
  | cons m rest ih =>
    intro st
    cases hd : starts_with_digit m with
    | false =>
      rw [restore_loop_cons_skip _ _ _ _ _ _ hd, restore_loop_cons_skip _ _ _ _ _ _ hd]
      exact ih st
    | true =>
      rw [restore_loop, restore_loop]
      simp only [hd, not_true_eq_false, if_false]
      rw [readlink_without_old udev st _ name S (replay_target_ne S udev m name hd hname)]
      split
      · rw [unlink_without_old]; exact ih _
      · rw [sysfs_without_old]
        split
        · rw [unlink_without_old]; exact ih _
        · rw [begin_without_old, unlink_without_old]; exact ih _

theorem unlink_replay_old_node (S : Nat) (udev : Udev) (st : State) (m name : String)
    (hm : starts_with_digit m = true) (hname : starts_with_digit name = false) :
    old_node (unlink udev st (util_strlcat (util_strlcat (util_strlcpy
        (util_strlcat (util_strlcpy udev.dev_path S) "/.udev/watch.old" S) S) "/" S) m S)) name
      = old_node st name := by
  rw [unlink_eq]
  rcases hr : resolve udev (util_strlcat (util_strlcat (util_strlcpy
        (util_strlcat (util_strlcpy udev.dev_path S) "/.udev/watch.old" S) S) "/" S) m S)
    with _ | l
  · rfl
  · cases l with
    | watch_dir => rfl
    | old_dir => rfl
    | watch_entry n => rfl
    | old_entry n =>
      exact old_node_without_ne n name st (replay_target_ne S udev m name hm hname n hr).symm

/-- The replay loop of `udev_watch_restore` leaves an entry of `watch.old`
whose name does not start with a digit as it is. -/
theorem restore_loop_old_node (S : Nat) (udev : Udev) (name : String)
    (hname : starts_with_digit name = false) :
    ∀ (items : List String) (st : State),
      old_node (restore_loop S udev
        (util_strlcat (util_strlcpy udev.dev_path S) "/.udev/watch.old" S) items st) name
        = old_node st name := by
  intro items
  induction items with
  | nil => intro st; rw [restore_loop]
  | cons m rest ih =>
    intro st
    cases hd : starts_with_digit m with
    | false =>
      rw [restore_loop_cons_skip _ _ _ _ _ _ hd]
      exact ih st
    | true =>
      rw [restore_loop]
      simp only [hd, not_true_eq_false, if_false]
      split
      · rw [ih, unlink_replay_old_node S udev st m name hd hname]
      · split
        · rw [ih, unlink_replay_old_node S udev st m name hd hname]
        · rw [ih, unlink_replay_old_node S udev _ m name hd hname]
          exact old_node_eq_of_watch_old (begin_watch_old S udev st _) name

/-- What `rename` returns: a failure that leaves the state as it was, or
the watch directory displaced to `watch.old`. -/
theorem rename_cases (udev : Udev) (st : State) (a b : String) :
    rename udev st a b = (-1, st)
    ∨ ∃ d, st.watch = some d ∧ resolve udev b = some Loc.old_dir
        ∧ rename udev st a b = (0, { st with watch := none, watch_old := some d }) := by
  unfold rename
  split
  · rename_i hc
    cases hw : st.watch with
    | none => left; rfl
    | some d =>
      simp only []
      split
      · right; exact ⟨d, rfl, hc.2, rfl⟩
      · left; rfl
  · left; rfl

/-- After `udev_watch_restore` an entry whose name does not start with a
digit is still there with the same node, in the watch directory or,
displaced, in `watch.old`. -/
theorem restore_keeps_skipped (S : Nat) (udev : Udev) (st : State) (name : String) (x : Node)
    (hname : starts_with_digit name = false) (h : watch_node st name = some x) :
    watch_node (udev_watch_restore S udev st) name = some x
    ∨ old_node (udev_watch_restore S udev st) name = some x := by
  unfold udev_watch_restore
  split
  · exact Or.inl h
  · simp only []
    rcases rename_cases udev st
      (util_strlcat (util_strlcpy udev.dev_path S) "/.udev/watch" S)
      (util_strlcat (util_strlcpy udev.dev_path S) "/.udev/watch.old" S)
      with h1 | ⟨d, hd, hres, h1⟩
    · left
      rw [h1]
      exact h
    · right
      rw [h1]
      simp only []
      have hold : old_node { st with watch := none, watch_old := some d } name = some x := by
        unfold watch_node at h
        rw [hd] at h
        exact h
      split
      · exact hold
      · rename_i ents _
        have hl := restore_loop_old_node S udev name hname ents
          { st with watch := none, watch_old := some d }
        rw [hold] at hl
        unfold rmdir
        rw [hres]
        simp only []
        split
        · rename_i he
          unfold old_node at hl
          rw [he] at hl
          exact absurd hl (by simp)
        · exact hl

theorem seventeen : "/.udev/watch.old/".length = 17 := rfl

theorem old_dir_length (udev : Udev) :
    (udev.dev_path.data ++ "/.udev/watch".data ++ ".old".data).length
      = udev.dev_path.length + 16 := by
  rw [List.length_append, watch_dir_length]
  have : ".old".data.length = 4 := rfl
  omega

theorem old_entry_length (udev : Udev) (s : List Char) :
    (udev.dev_path.data ++ "/.udev/watch".data ++ ".old".data ++ '/' :: s).length
      = udev.dev_path.length + 17 + s.length := by
  rw [List.length_append, old_dir_length, List.length_cons]
  omega

theorem old_dir_of_fits (S : Nat) (udev : Udev)
    (hf : udev.dev_path.length + "/.udev/watch.old".length < S) :
    util_strlcat (util_strlcpy udev.dev_path S) "/.udev/watch.old" S
      = ⟨udev.dev_path.data ++ "/.udev/watch.old".data⟩ := by
  rw [dir_path_data S udev "/.udev/watch.old", take_fits]
  have h16 : "/.udev/watch.old".length = 16 := rfl
  rw [h16] at hf
  rw [old_suffix_data, ← List.append_assoc, old_dir_length]
  omega

theorem watch_dir_of_fits (S : Nat) (udev : Udev)
    (hf : udev.dev_path.length + "/.udev/watch.old".length < S) :
    util_strlcat (util_strlcpy udev.dev_path S) "/.udev/watch" S
      = ⟨udev.dev_path.data ++ "/.udev/watch".data⟩ := by
  rw [dir_path_data S udev "/.udev/watch", take_fits]
  have h16 : "/.udev/watch.old".length = 16 := rfl
  rw [h16] at hf
  rw [watch_dir_length]
  omega

theorem replay_path_of_fits (S : Nat) (udev : Udev) (m : String) (hf : fits_old S udev m) :
    util_strlcat (util_strlcat (util_strlcpy
        (util_strlcat (util_strlcpy udev.dev_path S) "/.udev/watch.old" S) S) "/" S) m S
      = ⟨udev.dev_path.data ++ "/.udev/watch".data ++ ".old".data ++ '/' :: m.data⟩ := by
  rw [dir_path_data S udev "/.udev/watch.old", scan_path_data, old_suffix_data,
    ← List.append_assoc, slash_shape, take_fits]
  unfold fits_old at hf
  rw [seventeen] at hf
  rw [old_entry_length]
  have h3 : m.length = m.data.length := rfl
  omega

theorem readlink_old_entry (udev : Udev) (st : State) (path n : String) (S : Nat)
    (h : resolve udev path = some (Loc.old_entry n)) :
    readlink udev st path S =
      match old_node st n with
      | some (Node.link t) => (((min t.length S : Nat) : Int), ⟨t.data.take S⟩)
      | _ => (-1, "") := by
  unfold readlink node_at old_node
  rw [h]

/-- One turn of the replay loop on a name that starts with a digit and whose
path fits. -/
theorem restore_loop_cons_of_fits (S : Nat) (udev : Udev) (m : String)
    (rest : List String) (st : State) (hd : starts_with_digit m = true)
    (hf : fits_old S udev m) :
    restore_loop S udev (util_strlcat (util_strlcpy udev.dev_path S) "/.udev/watch.old" S)
        (m :: rest) st
      = match replay_dev S st (old_node st m) with
        | none =>
          restore_loop S udev (util_strlcat (util_strlcpy udev.dev_path S) "/.udev/watch.old" S)
            rest (without_old m st)
        | some dev =>
          restore_loop S udev (util_strlcat (util_strlcpy udev.dev_path S) "/.udev/watch.old" S)
            rest (without_old m (udev_watch_begin S udev st dev)) := by
  rw [restore_loop]
  simp only [hd, not_true_eq_false, if_false]
  rw [replay_path_of_fits S udev m hf]
  have hr := resolve_old_entry udev m (string_ne_of_digit m hd)
  rw [readlink_old_entry udev st _ m S hr]
  simp only [unlink_eq, hr]
  unfold replay_dev
  rcases hn : old_node st m with _ | (t | _)
  · simp
  · simp only []
    by_cases h0 : 0 < min t.length S
    · have h0' : ¬ ((min t.length S : Nat) : Int) ≤ 0 := by
        intro hc; have : (min t.length S : Int) ≤ 0 := by exact_mod_cast hc
        omega
      rw [if_neg h0', if_pos h0]
    · have h0' : ((min t.length S : Nat) : Int) ≤ 0 := by
        have : min t.length S = 0 := by omega
        rw [this]; simp
      rw [if_pos h0', if_neg h0]
  · simp

theorem filter_filter_ne (d : Dir) (m : String) (rest : List String) :
    (d.filter (fun e => e.1 ≠ m)).filter (fun e => decide (e.1 ∉ rest))
      = d.filter (fun e => decide (e.1 ∉ m :: rest)) := by
  rw [List.filter_filter]
  congr 1
  funext e
  simp only [List.mem_cons, not_or, ne_eq, decide_not, Bool.decide_and]
  rw [Bool.and_comm]

/-- The replay loop empties `watch.old` of every name it is given, when they
all start with a digit and their paths fit. -/
theorem restore_loop_watch_old (S : Nat) (udev : Udev) :
    ∀ (items : List String) (st : State),
      (∀ m ∈ items, starts_with_digit m = true ∧ fits_old S udev m) →
      (restore_loop S udev (util_strlcat (util_strlcpy udev.dev_path S) "/.udev/watch.old" S)
        items st).watch_old
        = st.watch_old.map (fun d => d.filter (fun e => decide (e.1 ∉ items))) := by
  intro items
  induction items with
  | nil =>
    intro st _
    rw [restore_loop]
    cases st.watch_old <;> simp
  | cons m rest ih =>
    intro st h
    have hrest : ∀ x ∈ rest, starts_with_digit x = true ∧ fits_old S udev x :=
      fun x hx => h x (List.mem_cons_of_mem _ hx)
    obtain ⟨hd, hf⟩ := h m (List.mem_cons_self _ _)
    rw [restore_loop_cons_of_fits S udev m rest st hd hf]
    have key : ∀ st' : State, st'.watch_old = st.watch_old →
        (restore_loop S udev
          (util_strlcat (util_strlcpy udev.dev_path S) "/.udev/watch.old" S)
          rest (without_old m st')).watch_old
        = st.watch_old.map (fun d => d.filter (fun e => decide (e.1 ∉ m :: rest))) := by
      intro st' hst'
      rw [ih _ hrest]
      unfold without_old
      simp only [hst']
      cases st.watch_old with
      | none => rfl
      | some d =>
        simp only [Option.map_some']
        rw [filter_filter_ne]
    split
    · exact key st rfl
    · exact key _ (begin_watch_old S udev st _)

theorem rmdir_old_empty (udev : Udev) (st : State) (path : String)
    (hr : resolve udev path = some Loc.old_dir) (h : st.watch_old = some []) :
    (rmdir udev st path).watch_old = none := by
  unfold rmdir
  rw [hr]
  simp only [h, if_true]

theorem add_watch_live (st : State) (p : String) (h : 0 ≤ (inotify_add_watch st p).1) :
    ∃ k0 : Nat, (inotify_add_watch st p).1 = (k0 : Int)
      ∧ ∀ w : Int, live (inotify_add_watch st p).2 w ↔ (live st w ∨ w = (k0 : Int)) := by
  unfold inotify_add_watch at h ⊢
  by_cases hp : p ∈ st.nodes
  · rw [if_pos hp] at h ⊢
    cases hf : st.watches.find? (fun e => e.2 = p) with
    | some e =>
      simp only []
      refine ⟨e.1, rfl, fun w => ⟨fun hl => Or.inl hl, fun hl => ?_⟩⟩
      rcases hl with hl | hl
      · exact hl
      · exact ⟨e, List.mem_of_find?_eq_some hf, hl.symm⟩
    | none =>
      simp only []
      refine ⟨fresh_wd st, rfl, fun w => ⟨fun hl => ?_, fun hl => ?_⟩⟩
      · obtain ⟨e, he, hew⟩ := hl
        rcases List.mem_append.mp he with he | he
        · exact Or.inl ⟨e, he, hew⟩
        · simp only [List.mem_singleton] at he
          right; rw [← hew, he]
      · rcases hl with ⟨e, he, hew⟩ | hl
        · exact ⟨e, List.mem_append_left _ he, hew⟩
        · exact ⟨(fresh_wd st, p), List.mem_append_right _ (List.mem_singleton.mpr rfl), hl.symm⟩
  · rw [if_neg hp] at h
    have h' : (0 : Int) ≤ -1 := h
    omega

theorem names_filter (d : Dir) (n : String) :
    (d.filter (fun e => e.1 ≠ n)).map Prod.fst = (d.map Prod.fst).filter (fun m => m ≠ n) :=
  map_fst_filter d n

theorem consistent_end (S : Nat) (udev : Udev) (st : State) (w : Int)
    (hfd : 0 ≤ st.inotify_fd) (hw : 0 ≤ w) (hfit : fits S udev (sprintf_d w))
    (h : consistent S udev st) : consistent S udev (udev_watch_end S udev st w) := by
  obtain ⟨k0, hk0⟩ := Int.eq_ofNat_of_zero_le hw
  have hnames : watch_names (udev_watch_end S udev st w)
      = (watch_names st).filter (fun m => m ≠ sprintf_d w) := by
    rw [end_of_fits S udev st w hfd hw hfit]
    unfold watch_names
    cases hd : st.watch with
    | none => rfl
    | some d => exact names_filter d _
  have hlive : ∀ v : Int, live (udev_watch_end S udev st w) v ↔ (live st v ∧ v ≠ w) := by
    intro v
    rw [end_of_fits S udev st w hfd hw hfit]
    constructor
    · rintro ⟨e, he, hev⟩
      have he' := List.mem_filter.mp he
      have h2 := he'.2
      simp only [ne_eq, decide_not, Bool.not_eq_true', decide_eq_false_iff_not] at h2
      exact ⟨⟨e, he'.1, hev⟩, by rw [← hev]; exact h2⟩
    · rintro ⟨⟨e, he, hev⟩, hne⟩
      refine ⟨e, List.mem_filter.mpr ⟨he, ?_⟩, hev⟩
      simp only [ne_eq, decide_not, Bool.not_eq_true', decide_eq_false_iff_not]
      rw [hev]; exact hne
  obtain ⟨h1, h2, h3⟩ := h
  refine ⟨?_, ?_, ?_⟩
  · rw [hnames]; exact h1.filter _
  · intro k hk
    rw [hlive] at hk
    rw [hnames, List.mem_filter]
    refine ⟨h2 k hk.1, ?_⟩
    simp only [ne_eq, decide_not, Bool.not_eq_true', decide_eq_false_iff_not]
    intro hc
    rw [hk0] at hc hk
    have := sprintf_d_injective _ _ hc
    exact hk.2 (by rw [this])
  · intro n hn
    rw [hnames, List.mem_filter] at hn
    obtain ⟨k, hk, hnk, hf⟩ := h3 n hn.1
    refine ⟨k, ?_, hnk, hf⟩
    rw [hlive]
    refine ⟨hk, ?_⟩
    intro hc
    have h4 := hn.2
    simp only [ne_eq, decide_not, Bool.not_eq_true', decide_eq_false_iff_not] at h4
    apply h4
    rw [hnk, hc]

theorem consistent_begin (S : Nat) (udev : Udev) (st : State) (dev : Device)
    (hfd : 0 ≤ st.inotify_fd) (hok : op_ok S udev st (Op.watch_begin dev))
    (h : consistent S udev st) : consistent S udev (udev_watch_begin S udev st dev) := by
  by_cases hmaj : dev.devnum_major = 0
  · unfold udev_watch_begin
    rw [if_pos (Or.inr hmaj)]
    exact h
  · rcases hok with hok | ⟨hwd, hsys, hfit⟩
    · exact absurd hok hmaj
    · obtain ⟨k0, hk0, hlive⟩ := add_watch_live st dev.devnode hwd
      have hb := begin_of_fits S udev st dev hfd hmaj hsys hfit
      rw [hk0] at hb hfit
      have hnames : watch_names (udev_watch_begin S udev st dev)
          = (watch_names st).filter (fun m => m ≠ sprintf_d (k0 : Int))
              ++ [sprintf_d (k0 : Int)] := by
        rw [hb]
        unfold watch_names
        simp only [Option.getD_some, List.map_append, List.map_cons, List.map_nil]
        rw [names_filter]
      have hlive' : ∀ v : Int, live (udev_watch_begin S udev st dev) v
          ↔ (live st v ∨ v = (k0 : Int)) := by
        intro v
        rw [← hlive v, hb]
        rfl
      obtain ⟨h1, h2, h3⟩ := h
      refine ⟨?_, ?_, ?_⟩
      · rw [hnames]
        apply List.Nodup.append (h1.filter _) (List.nodup_singleton _)
        intro x hx hx'
        rw [List.mem_singleton] at hx'
        have := (List.mem_filter.mp hx).2
        simp only [ne_eq, decide_not, Bool.not_eq_true', decide_eq_false_iff_not] at this
        exact this hx'
      · intro k hk
        rw [hlive'] at hk
        rw [hnames, List.mem_append]
        by_cases hkk : k = k0
        · right; rw [hkk]; exact List.mem_singleton.mpr rfl
        · left
          rcases hk with hk | hk
          · rw [List.mem_filter]
            refine ⟨h2 k hk, ?_⟩
            simp only [ne_eq, decide_not, Bool.not_eq_true', decide_eq_false_iff_not]
            intro hc
            exact hkk (sprintf_d_injective _ _ hc)
          · exact absurd (by exact_mod_cast hk) hkk
      · intro n hn
        rw [hnames, List.mem_append] at hn
        rcases hn with hn | hn
        · obtain ⟨k, hk, hnk, hf⟩ := h3 n (List.mem_filter.mp hn).1
          exact ⟨k, (hlive' _).mpr (Or.inl hk), hnk, hf⟩
        · rw [List.mem_singleton] at hn
          exact ⟨k0, (hlive' _).mpr (Or.inr rfl), hn, by rw [hn]; exact hfit⟩

theorem clear_loop_consistent (S : Nat) (udev : Udev) (dev : Device) :
    ∀ (items : List String) (st : State),
      (∀ m ∈ items, ∃ k : Nat, m = sprintf_d (k : Int) ∧ fits S udev m) →
      0 ≤ st.inotify_fd → consistent S udev st →
      consistent S udev (clear_loop S udev dev
        (util_strlcat (util_strlcpy udev.dev_path S) "/.udev/watch" S) items st) := by
  intro items
  induction items with
  | nil => intro st _ _ h; rw [clear_loop]; exact h
  | cons m rest ih =>
    intro st hitems hfd h
    have hrest : ∀ x ∈ rest, ∃ k : Nat, x = sprintf_d (k : Int) ∧ fits S udev x :=
      fun x hx => hitems x (List.mem_cons_of_mem _ hx)
    obtain ⟨k, hmk, hfm⟩ := hitems m (List.mem_cons_self _ _)
    have hd : starts_with_digit m = true := by rw [hmk]; exact sprintf_d_starts_with_digit k
    rw [clear_loop_cons_of_fits S udev dev m rest st hd hfm]
    split
    · apply ih _ hrest (by rw [end_fd]; exact hfd)
      have ha : atoi m = (k : Int) := by rw [hmk]; exact atoi_sprintf_d k
      rw [ha]
      exact consistent_end S udev st _ hfd (Int.ofNat_nonneg k) (by rw [← hmk]; exact hfm) h
    · exact ih st hrest hfd h

/-- The directory path of `udev_watch_clear`, cut or not, leads to the watch
directory or nowhere. -/
theorem resolve_clear_dir (S : Nat) (udev : Udev) :
    resolve udev (util_strlcat (util_strlcpy udev.dev_path S) "/.udev/watch" S)
        = some Loc.watch_dir
    ∨ resolve udev (util_strlcat (util_strlcpy udev.dev_path S) "/.udev/watch" S) = none := by
  rw [dir_path_data S udev "/.udev/watch"]
  have hlen : ((udev.dev_path.data ++ "/.udev/watch".data).take (S - 1)).length
      ≤ udev.dev_path.length + 12 := by
    rw [List.length_take, watch_dir_length]
    omega
  rcases resolve_cases udev ⟨(udev.dev_path.data ++ "/.udev/watch".data).take (S - 1)⟩
    with ⟨h, _⟩ | ⟨_, hp⟩ | ⟨n, _, _, hp⟩ | ⟨n, _, _, hp⟩ | h
  · exact Or.inl h
  · exfalso
    have hp' : (udev.dev_path.data ++ "/.udev/watch".data).take (S - 1)
        = udev.dev_path.data ++ "/.udev/watch".data ++ ".old".data := hp
    rw [hp', old_dir_length] at hlen
    omega
  · exfalso
    have hp' : (udev.dev_path.data ++ "/.udev/watch".data).take (S - 1)
        = udev.dev_path.data ++ "/.udev/watch".data ++ '/' :: n.data := hp
    rw [hp', watch_entry_length] at hlen
    omega
  · exfalso
    have hp' : (udev.dev_path.data ++ "/.udev/watch".data).take (S - 1)
        = udev.dev_path.data ++ "/.udev/watch".data ++ ".old".data ++ '/' :: n.data := hp
    rw [hp', old_entry_length] at hlen
    omega
  · exact Or.inr h

theorem consistent_clear (S : Nat) (udev : Udev) (st : State) (dev : Device)
    (hfd : 0 ≤ st.inotify_fd) (h : consistent S udev st) :
    consistent S udev (udev_watch_clear S udev st dev) := by
  unfold udev_watch_clear
  split
  · exact h
  · simp only []
    unfold opendir
    rcases resolve_clear_dir S udev with hr | hr
    · rw [hr]
      simp only []
      cases hw : st.watch with
      | none => exact h
      | some d =>
        simp only [Option.map_some']
        rw [clear_loop_cons_skip _ _ _ _ _ _ _ (by decide),
          clear_loop_cons_skip _ _ _ _ _ _ _ (by decide)]
        apply clear_loop_consistent S udev dev _ st _ hfd h
        intro m hm
        have hm' : m ∈ watch_names st := by
          unfold watch_names; rw [hw]; exact hm
        obtain ⟨k, _, hk, hf⟩ := h.2.2 m hm'
        exact ⟨k, hk, hf⟩
    · rw [hr]
      exact h

theorem begin_fd (S : Nat) (udev : Udev) (st : State) (dev : Device) :
    (udev_watch_begin S udev st dev).inotify_fd = st.inotify_fd := by
  unfold udev_watch_begin
  split
  · rfl
  · simp only []
    unfold symlink unlink util_create_path
    split
    · split <;> split <;> exact add_watch_fd st _
    · split <;> split <;> split <;> exact add_watch_fd st _

theorem clear_fd (S : Nat) (udev : Udev) (st : State) (dev : Device) :
    (udev_watch_clear S udev st dev).inotify_fd = st.inotify_fd := by
  unfold udev_watch_clear
  split
  · rfl
  · simp only []
    split
    · rfl
    · exact clear_loop_fd S udev dev _ _ st

theorem step_fd (S : Nat) (udev : Udev) (st : State) (op : Op) :
    (step S udev st op).inotify_fd = st.inotify_fd := by
  cases op with
  | watch_begin dev => exact begin_fd S udev st dev
  | watch_end wd => exact end_fd S udev st wd
  | watch_clear dev => exact clear_fd S udev st dev

theorem consistent_step (S : Nat) (udev : Udev) (st : State) (op : Op)
    (hfd : 0 ≤ st.inotify_fd) (hok : op_ok S udev st op) (h : consistent S udev st) :
    consistent S udev (step S udev st op) := by
  cases op with
  | watch_begin dev => exact consistent_begin S udev st dev hfd hok h
  | watch_end wd =>
    show consistent S udev (udev_watch_end S udev st wd)
    rcases hok with hok | hok
    · unfold udev_watch_end
      rw [if_pos (Or.inr hok)]
      exact h
    · by_cases hw : wd < 0
      · unfold udev_watch_end
        rw [if_pos (Or.inr hw)]
        exact h
      · exact consistent_end S udev st wd hfd (by omega) hok h
  | watch_clear dev => exact consistent_clear S udev st dev hfd h

theorem consistent_run (S : Nat) (udev : Udev) :
    ∀ (ops : List Op) (st : State), 0 ≤ st.inotify_fd → run_ok S udev st ops →
      consistent S udev st → consistent S udev (run S udev st ops) := by
  intro ops
  induction ops with
  | nil => intro st _ _ h; exact h
  | cons op ops ih =>
    intro st hfd hok h
    exact ih _ (by rw [step_fd]; exact hfd) hok.2 (consistent_step S udev st op hfd hok.1 h)

theorem wd_lt_fresh (st : State) : ∀ e ∈ st.watches, e.1 < fresh_wd st := by
  unfold fresh_wd
  generalize st.last_wd = b
  generalize st.watches = l
  induction l with
  | nil => intro e he; exact absurd he (by simp)
  | cons x xs ih =>
    intro e he
    simp only [List.map_cons, List.foldr_cons]
    rcases List.mem_cons.mp he with h | h
    · rw [h]; omega
    · have := ih e h
      omega

theorem fresh_append (st : State) (p : String) :
    fresh_wd { st with watches := st.watches ++ [(fresh_wd st, p)], last_wd := fresh_wd st }
      = fresh_wd st + 1 := by
  have key : ∀ (l : List (Nat × String)) (b c : Nat), b ≤ c →
      (l.map Prod.fst).foldr max b ≤ c → ((l ++ [(c, p)]).map Prod.fst).foldr max c = c := by
    intro l
    induction l with
    | nil => intro b c _ _; simp
    | cons x xs ih =>
      intro b c hb h
      simp only [List.map_cons, List.foldr_cons, List.cons_append] at h ⊢
      have h1 : (xs.map Prod.fst).foldr max b ≤ c := by omega
      rw [ih b c hb h1]
      omega
  have hb : st.last_wd ≤ (st.watches.map Prod.fst).foldr max st.last_wd := by
    generalize st.watches = l
    induction l with
    | nil => simp
    | cons x xs ih => simp only [List.map_cons, List.foldr_cons]; omega
  show ((st.watches ++ [(fresh_wd st, p)]).map Prod.fst).foldr max (fresh_wd st) + 1 = _
  rw [key st.watches st.last_wd (fresh_wd st) (by unfold fresh_wd; omega)
    (by unfold fresh_wd; omega)]

/-- The two ways `inotify_add_watch` succeeds on a path that can be
watched. -/
theorem add_watch_cases (st : State) (p : String) (hp : p ∈ st.nodes) :
    (∃ e ∈ st.watches, e.2 = p ∧ inotify_add_watch st p = ((e.1 : Int), st))
    ∨ ((∀ e ∈ st.watches, e.2 ≠ p)
        ∧ inotify_add_watch st p = ((fresh_wd st : Int),
            { st with watches := st.watches ++ [(fresh_wd st, p)], last_wd := fresh_wd st })) := by
  unfold inotify_add_watch
  rw [if_pos hp]
  cases hf : st.watches.find? (fun e => e.2 = p) with
  | some e =>
    left
    refine ⟨e, List.mem_of_find?_eq_some hf, ?_, rfl⟩
    have := List.find?_some hf
    simpa using this
  | none =>
    right
    refine ⟨?_, rfl⟩
    intro e he hc
    have := List.find?_eq_none.mp hf e he
    simp only [decide_eq_true_eq] at this
    exact this hc

theorem lookup_of_mem_nodup (d : Dir) (h : (d.map Prod.fst).Nodup) :
    ∀ e ∈ d, d.lookup e.1 = some e.2 := by
  induction d with
  | nil => intro e he; exact absurd he (by simp)
  | cons x xs ih =>
    intro e he
    obtain ⟨k, v⟩ := x
    rw [List.map_cons, List.nodup_cons] at h
    rw [List.lookup_cons]
    rcases List.mem_cons.mp he with h1 | h1
    · rw [h1]; simp
    · have hne : e.1 ≠ k := by
        intro hc
        apply h.1
        rw [← hc]
        exact List.mem_map.mpr ⟨e, h1, rfl⟩
      have : (e.1 == k) = false := by simpa using hne
      rw [this]
      exact ih h.2 e h1

theorem replay_dev_sysfs (S : Nat) (a b : State) (h : a.sysfs = b.sysfs) (n : Option Node) :
    replay_dev S a n = replay_dev S b n := by
  unfold replay_dev udev_device_new_from_syspath
  rw [h]

theorem replay_dev_some (S : Nat) (st : State) (t : String) (dev : Device)
    (hlen : t.length < S) (h : replay_dev S st (some (Node.link t)) = some dev) :
    dev.syspath = t ∧ t ≠ "" := by
  unfold replay_dev at h
  simp only [] at h
  by_cases h0 : 0 < min t.length S
  · rw [if_pos h0] at h
    unfold udev_device_new_from_syspath at h
    have := List.find?_some h
    simp only [decide_eq_true_eq] at this
    rw [take_string_fits t S hlen] at this
    refine ⟨this, ?_⟩
    intro hc
    rw [hc] at h0
    simp at h0
  · rw [if_neg h0] at h
    exact absurd h (by simp)

theorem replay_dev_link (S : Nat) (st : State) (n : Node) (dev : Device)
    (h : replay_dev S st (some n) = some dev) : ∃ t, n = Node.link t := by
  cases n with
  | link t => exact ⟨t, rfl⟩
  | file => unfold replay_dev at h; exact absurd h (by simp)

/-- The state `udev_watch_begin` leaves during the replay: a new entry at the
end of the watch directory, named after a descriptor no other entry has. -/
theorem replay_begin (S : Nat) (udev : Udev) (st0 cur : State) (seen : List String)
    (acc : List Node) (dev : Device) (B : Nat)
    (hinv : Replay S udev st0 cur seen acc)
    (hmaj : dev.devnum_major ≠ 0) (hnode : dev.devnode ∈ st0.nodes) (hsys : dev.syspath ≠ "")
    (hseen : dev.devnode ∉ seen)
    (hB : fresh_wd cur < B) (hfit : ∀ k : Nat, k < B → fits S udev (sprintf_d (k : Int))) :
    Replay S udev st0 (udev_watch_begin S udev cur dev) (dev.devnode :: seen)
        (acc ++ [Node.link dev.syspath])
      ∧ fresh_wd (udev_watch_begin S udev cur dev) ≤ fresh_wd cur + 1 := by
  have hnode' : dev.devnode ∈ cur.nodes := by rw [hinv.nodes]; exact hnode
  rcases add_watch_cases cur dev.devnode hnode' with ⟨e, he, hep, hadd⟩ | ⟨hnone, hadd⟩
  · -- the node is watched already
    have hfe : fits S udev (sprintf_d (e.1 : Int)) := hfit e.1 (by
      have := wd_lt_fresh cur e he; omega)
    have hb := begin_of_fits S udev cur dev hinv.fd hmaj hsys (by rw [hadd]; exact hfe)
    rw [hadd] at hb
    simp only [] at hb
    have hfresh_name : sprintf_d (e.1 : Int) ∉ watch_names cur := by
      intro hc
      obtain ⟨e', he', hn, hs⟩ := hinv.names _ hc
      have h1 : e.1 = e'.1 := sprintf_d_injective _ _ hn
      have h2 : e = e' := by
        have hinj := List.inj_on_of_nodup_map hinv.table
        exact hinj he he' h1
      rw [← h2, hep] at hs
      exact hseen hs
    have hfilter : (cur.watch.getD []).filter (fun x => x.1 ≠ sprintf_d (e.1 : Int))
        = cur.watch.getD [] := by
      rw [List.filter_eq_self]
      intro x hx
      simp only [ne_eq, decide_not, Bool.not_eq_true', decide_eq_false_iff_not]
      intro hc
      apply hfresh_name
      unfold watch_names
      rw [← hc]
      exact List.mem_map.mpr ⟨x, hx, rfl⟩
    rw [hfilter] at hb
    rw [hb]
    refine ⟨⟨hinv.sysfs, hinv.nodes, hinv.fd, hinv.table, ?_, ?_⟩, by
      show fresh_wd { cur with watch := _ } ≤ _
      unfold fresh_wd; simp⟩
    · intro n hn
      unfold watch_names at hn
      simp only [Option.getD_some, List.map_append, List.map_cons, List.map_nil,
        List.mem_append, List.mem_singleton] at hn
      rcases hn with hn | hn
      · obtain ⟨e', he', hn', hs⟩ := hinv.names n hn
        exact ⟨e', he', hn', List.mem_cons_of_mem _ hs⟩
      · exact ⟨e, he, hn, by rw [hep]; exact List.mem_cons_self _ _⟩
    · simp only [Option.getD_some, List.map_append, List.map_cons, List.map_nil]
      rw [hinv.targets]
  · -- a new descriptor
    have hfe : fits S udev (sprintf_d (fresh_wd cur : Int)) := hfit _ hB
    have hb := begin_of_fits S udev cur dev hinv.fd hmaj hsys (by rw [hadd]; exact hfe)
    rw [hadd] at hb
    simp only [] at hb
    have hfresh_name : sprintf_d (fresh_wd cur : Int) ∉ watch_names cur := by
      intro hc
      obtain ⟨e', he', hn, _⟩ := hinv.names _ hc
      have h1 : fresh_wd cur = e'.1 := sprintf_d_injective _ _ hn
      have := wd_lt_fresh cur e' he'
      omega
    have hfilter : (cur.watch.getD []).filter (fun x => x.1 ≠ sprintf_d (fresh_wd cur : Int))
        = cur.watch.getD [] := by
      rw [List.filter_eq_self]
      intro x hx
      simp only [ne_eq, decide_not, Bool.not_eq_true', decide_eq_false_iff_not]
      intro hc
      apply hfresh_name
      unfold watch_names
      rw [← hc]
      exact List.mem_map.mpr ⟨x, hx, rfl⟩
    rw [hfilter] at hb
    rw [hb]
    refine ⟨⟨hinv.sysfs, hinv.nodes, hinv.fd, ?_, ?_, ?_⟩, ?_⟩
    · show ((cur.watches ++ [(fresh_wd cur, dev.devnode)]).map Prod.fst).Nodup
      rw [List.map_append]
      apply List.Nodup.append hinv.table (by simp)
      intro x hx hx'
      simp only [List.map_cons, List.map_nil, List.mem_singleton] at hx'
      obtain ⟨e', he', hfst⟩ := List.mem_map.mp hx
      have := wd_lt_fresh cur e' he'
      omega
    · intro n hn
      unfold watch_names at hn
      simp only [Option.getD_some, List.map_append, List.map_cons, List.map_nil,
        List.mem_append, List.mem_singleton] at hn
      rcases hn with hn | hn
      · obtain ⟨e', he', hn', hs⟩ := hinv.names n hn
        exact ⟨e', List.mem_append_left _ he', hn', List.mem_cons_of_mem _ hs⟩
      · exact ⟨(fresh_wd cur, dev.devnode),
          List.mem_append_right _ (List.mem_singleton.mpr rfl), hn, List.mem_cons_self _ _⟩
    · simp only [Option.getD_some, List.map_append, List.map_cons, List.map_nil]
      rw [hinv.targets]
    · have := fresh_append cur dev.devnode
      show fresh_wd { cur with watches := _, last_wd := _, watch := _ } ≤ _
      have h2 : fresh_wd { cur with
            watches := cur.watches ++ [(fresh_wd cur, dev.devnode)],
            last_wd := fresh_wd cur,
            watch := some (cur.watch.getD [] ++
              [(sprintf_d (fresh_wd cur : Int), Node.link dev.syspath)]) }
          = fresh_wd { cur with
            watches := cur.watches ++ [(fresh_wd cur, dev.devnode)],
            last_wd := fresh_wd cur } := rfl
      rw [h2, this]

theorem replay_without_old (S : Nat) (udev : Udev) (st0 cur : State) (seen : List String)
    (acc : List Node) (m : String) (h : Replay S udev st0 cur seen acc) :
    Replay S udev st0 (without_old m cur) seen acc :=
  ⟨h.sysfs, h.nodes, h.fd, h.table, h.names, h.targets⟩

theorem fresh_without_old (m : String) (st : State) :
    fresh_wd (without_old m st) = fresh_wd st := rfl

/-- The targets of the entries the replay loop writes, in the order of the
old directory. -/
theorem replay_loop_targets (S : Nat) (udev : Udev) (st0 : State) (B : Nat)
    (hfit : ∀ k : Nat, k < B → fits S udev (sprintf_d (k : Int))) :
    ∀ (todo : Dir) (cur : State) (seen : List String) (acc : List Node),
      (todo.map Prod.fst).Nodup →
      (∀ e ∈ todo, old_node cur e.1 = some e.2) →
      (∀ e ∈ todo, starts_with_digit e.1 = true → fits_old S udev e.1) →
      (∀ e ∈ todo, ∀ t, e.2 = Node.link t → t.length < S) →
      (∀ e ∈ todo, ∀ dev, restorable S st0 e = some dev →
        dev.devnum_major ≠ 0 ∧ dev.devnode ∈ st0.nodes) →
      (((todo.filterMap (restorable S st0)).map (fun dev => dev.devnode)) ++ seen).Nodup →
      fresh_wd cur + todo.length ≤ B →
      Replay S udev st0 cur seen acc →
      ((restore_loop S udev
          (util_strlcat (util_strlcpy udev.dev_path S) "/.udev/watch.old" S)
          (todo.map Prod.fst) cur).watch.getD []).map Prod.snd
        = acc ++ (todo.filter (fun e => (restorable S st0 e).isSome)).map Prod.snd := by
  intro todo
  induction todo with
  | nil =>
    intro cur seen acc _ _ _ _ _ _ _ hinv
    simp only [List.map_nil, List.filter_nil, List.append_nil]
    rw [restore_loop]
    exact hinv.targets
  | cons x todo ih =>
    intro cur seen acc hnd hold hfo hlen hdev hinj hB hinv
    obtain ⟨m, node⟩ := x
    have hnd' : (todo.map Prod.fst).Nodup := by
      rw [List.map_cons, List.nodup_cons] at hnd; exact hnd.2
    have hm_notin : ∀ e ∈ todo, e.1 ≠ m := by
      intro e he hc
      rw [List.map_cons, List.nodup_cons] at hnd
      apply hnd.1
      show m ∈ todo.map Prod.fst
      rw [← hc]
      exact List.mem_map.mpr ⟨e, he, rfl⟩
    have hfo' : ∀ e ∈ todo, starts_with_digit e.1 = true → fits_old S udev e.1 :=
      fun e he => hfo e (List.mem_cons_of_mem _ he)
    have hlen' : ∀ e ∈ todo, ∀ t, e.2 = Node.link t → t.length < S :=
      fun e he => hlen e (List.mem_cons_of_mem _ he)
    have hdev' : ∀ e ∈ todo, ∀ dev, restorable S st0 e = some dev →
        dev.devnum_major ≠ 0 ∧ dev.devnode ∈ st0.nodes :=
      fun e he => hdev e (List.mem_cons_of_mem _ he)
    have hB' : fresh_wd cur + todo.length ≤ B := by
      rw [List.length_cons] at hB; omega
    rw [List.map_cons]
    cases hd : starts_with_digit m with
    | false =>
      have hres : restorable S st0 (m, node) = none := by
        unfold restorable; simp [hd]
      rw [restore_loop_cons_skip _ _ _ _ _ _ hd]
      rw [List.filter_cons_of_neg (by simp [hres])]
      rw [List.filterMap_cons_none hres] at hinj
      exact ih cur seen acc hnd' (fun e he => hold e (List.mem_cons_of_mem _ he))
        hfo' hlen' hdev' hinj hB' hinv
    | true =>
      have hf := hfo (m, node) (List.mem_cons_self _ _) hd
      rw [restore_loop_cons_of_fits S udev m (todo.map Prod.fst) cur hd hf]
      have hnode : old_node cur m = some node := hold (m, node) (List.mem_cons_self _ _)
      have hres : replay_dev S cur (old_node cur m) = restorable S st0 (m, node) := by
        rw [hnode, replay_dev_sysfs S cur st0 hinv.sysfs]
        unfold restorable
        simp [hd]
      rw [hres]
      cases hr : restorable S st0 (m, node) with
      | none =>
        simp only []
        rw [List.filter_cons_of_neg (by simp [hr])]
        rw [List.filterMap_cons_none hr] at hinj
        apply ih (without_old m cur) seen acc hnd' _ hfo' hlen' hdev' hinj
          (by rw [fresh_without_old]; exact hB') (replay_without_old S udev st0 cur seen acc m hinv)
        intro e he
        rw [old_node_without_ne m e.1 cur (hm_notin e he)]
        exact hold e (List.mem_cons_of_mem _ he)
      | some dev =>
        simp only []
        rw [List.filter_cons_of_pos (by simp [hr])]
        rw [List.filterMap_cons_some hr] at hinj
        obtain ⟨hmaj, hnodes⟩ := hdev (m, node) (List.mem_cons_self _ _) dev hr
        have hrd : replay_dev S st0 (some node) = some dev := by
          unfold restorable at hr
          simpa [hd] using hr
        obtain ⟨t, ht⟩ := replay_dev_link S st0 node dev hrd
        have htl := hlen (m, node) (List.mem_cons_self _ _) t ht
        rw [ht] at hrd
        obtain ⟨hsys, htne⟩ := replay_dev_some S st0 t dev htl hrd
        have hseen : dev.devnode ∉ seen := by
          intro hc
          simp only [List.map_cons, List.cons_append, List.nodup_cons, List.mem_append] at hinj
          exact hinj.1 (Or.inr hc)
        have hinj' : (((todo.filterMap (restorable S st0)).map (fun dev => dev.devnode))
            ++ (dev.devnode :: seen)).Nodup := by
          simp only [List.map_cons, List.cons_append] at hinj
          exact (List.perm_middle.nodup_iff).mpr hinj
        obtain ⟨hinv2, hfresh⟩ := replay_begin S udev st0 cur seen acc dev B hinv hmaj hnodes
          (by rw [hsys]; exact htne) hseen (by rw [List.length_cons] at hB; omega) hfit
        have := ih (without_old m (udev_watch_begin S udev cur dev)) (dev.devnode :: seen)
          (acc ++ [Node.link dev.syspath]) hnd' (by
            intro e he
            rw [old_node_without_ne m e.1 _ (hm_notin e he)]
            rw [old_node_eq_of_watch_old (begin_watch_old S udev cur dev)]
            exact hold e (List.mem_cons_of_mem _ he)) hfo' hlen' hdev' hinj'
          (by rw [fresh_without_old]; rw [List.length_cons] at hB; omega)
          (replay_without_old S udev st0 _ _ _ m hinv2)
        rw [this, List.map_cons, hsys, ht]
        simp

theorem rmdir_watch (udev : Udev) (st : State) (path : String)
    (hr : resolve udev path = some Loc.old_dir) : (rmdir udev st path).watch = st.watch := by
  unfold rmdir
  rw [hr]
  simp only []
  split <;> rfl

theorem restore_targets_core (UTIL_PATH_SIZE : Nat) (udev : Udev) (st : State) (d : Dir)
    (hfd : 0 ≤ st.inotify_fd) (hw : st.watch = some d)
    (hold : st.watch_old = none ∨ st.watch_old = some [])
    (hroot : udev.dev_path.length + "/.udev/watch.old".length < UTIL_PATH_SIZE)
    (hnames : (d.map Prod.fst).Nodup)
    (hfitold : ∀ e ∈ d, starts_with_digit e.1 = true → fits_old UTIL_PATH_SIZE udev e.1)
    (htarget : ∀ e ∈ d, ∀ t, e.2 = Node.link t → t.length < UTIL_PATH_SIZE)
    (hdev : ∀ e ∈ d, ∀ dev, restorable UTIL_PATH_SIZE st e = some dev →
      dev.devnum_major ≠ 0 ∧ dev.devnode ∈ st.nodes)
    (hdistinct : ((d.filterMap (restorable UTIL_PATH_SIZE st)).map
      (fun dev => dev.devnode)).Nodup)
    (htable : (st.watches.map Prod.fst).Nodup)
    (hfitnew : ∀ k : Nat, k < fresh_wd st + d.length →
      fits UTIL_PATH_SIZE udev (sprintf_d (k : Int))) :
    ((udev_watch_restore UTIL_PATH_SIZE udev st).watch.getD []).map Prod.snd
      = (d.filter (fun e => (restorable UTIL_PATH_SIZE st e).isSome)).map Prod.snd := by
  have hO := old_dir_of_fits UTIL_PATH_SIZE udev hroot
  have hF := watch_dir_of_fits UTIL_PATH_SIZE udev hroot
  have hren : rename udev st
        (util_strlcat (util_strlcpy udev.dev_path UTIL_PATH_SIZE) "/.udev/watch" UTIL_PATH_SIZE)
        (util_strlcat (util_strlcpy udev.dev_path UTIL_PATH_SIZE) "/.udev/watch.old"
          UTIL_PATH_SIZE)
      = (0, { st with watch := none, watch_old := some d }) := by
    unfold rename
    rw [hF, hO, resolve_watch_dir, resolve_old_dir]
    simp only [and_self, if_true, hw]
    rw [if_pos hold]
  unfold udev_watch_restore
  rw [if_neg (by omega)]
  simp only []
  rw [hren]
  simp only []
  have hop : opendir udev { st with watch := none, watch_old := some d }
      (util_strlcat (util_strlcpy udev.dev_path UTIL_PATH_SIZE) "/.udev/watch.old"
        UTIL_PATH_SIZE) = some ("." :: ".." :: d.map Prod.fst) := by
    unfold opendir
    rw [hO, resolve_old_dir]
    rfl
  rw [hop]
  simp only []
  rw [restore_loop_cons_skip _ _ _ _ _ _ (by decide),
    restore_loop_cons_skip _ _ _ _ _ _ (by decide)]
  rw [rmdir_watch udev _ _ (by rw [hO]; exact resolve_old_dir udev)]
  have hres : ∀ e, restorable UTIL_PATH_SIZE
      { st with watch := none, watch_old := some d } e = restorable UTIL_PATH_SIZE st e :=
    fun e => rfl
  have := replay_loop_targets UTIL_PATH_SIZE udev st (fresh_wd st + d.length) hfitnew d
    { st with watch := none, watch_old := some d } [] [] hnames
    (by
      intro e he
      show (some d).bind (fun d => d.lookup e.1) = some e.2
      exact lookup_of_mem_nodup d hnames e he)
    hfitold htarget hdev (by rw [List.append_nil]; exact hdistinct)
    (by
      show fresh_wd st + d.length ≤ _
      exact Nat.le_refl _)
    ⟨rfl, rfl, hfd, htable, by
      intro n hn
      exact absurd hn (by simp [watch_names]), rfl⟩
  rw [this]
  rfl

/-- C9 at a concrete input: the device `/devices/N` with major 0 in a
running state. -/
theorem C9_major_zero_noop_witness : udev_watch_begin 1024 ex_udev ex_running dev_N = ex_running
    ∧ udev_watch_clear 1024 ex_udev ex_running dev_N = ex_running :=
  C9_major_zero_noop 1024 ex_udev ex_running dev_N (by decide)

/-- C2 as stated fails for a live device without a major number: the old
registry is `{5 -> /devices/N}`, the rename succeeds and `/devices/N` resolves
to a live device, yet after `udev_watch_restore` the current registry has no
entry at all, because `udev_watch_begin` returns at once when the major number
is zero. -/
theorem C2_major_zero_not_restored : 0 ≤ ex_prior_N.inotify_fd
    ∧ (rename ex_udev ex_prior_N
        (util_strlcat (util_strlcpy ex_udev.dev_path 1024) "/.udev/watch" 1024)
        (util_strlcat (util_strlcpy ex_udev.dev_path 1024) "/.udev/watch.old" 1024)).1 = 0
    ∧ udev_device_new_from_syspath ex_prior_N "/devices/N" = some dev_N
    ∧ (udev_watch_restore 1024 ex_udev ex_prior_N).watch = none := by
  decide

/-- C2, as amended: the channel is up, the watch directory exists with
distinct entry names, `watch.old` is missing or empty and both directory paths
fit the buffer (so the rename succeeds), every old entry path and link target
fits the buffer, every device an old entry resolves to has a non-zero major
number and a device node the kernel can watch, no two old entries resolve to
devices with the same device node, the kernel watch table has no descriptor
twice, and the new entry paths fit the buffer.  Then after
`udev_watch_restore` the targets of the current registry are, one for one and
in order, the targets of the old entries whose name starts with a digit and
whose link resolves to a device; nothing else is in the registry. -/
theorem C2_restore_rebuilds (UTIL_PATH_SIZE : Nat) (udev : Udev) (st : State) (d : Dir)
    (hfd : 0 ≤ st.inotify_fd) (hw : st.watch = some d)
    (hold : st.watch_old = none ∨ st.watch_old = some [])
    (hroot : udev.dev_path.length + "/.udev/watch.old".length < UTIL_PATH_SIZE)
    (hnames : (d.map Prod.fst).Nodup)
    (hfitold : ∀ e ∈ d, starts_with_digit e.1 = true → fits_old UTIL_PATH_SIZE udev e.1)
    (htarget : ∀ e ∈ d, node_fits UTIL_PATH_SIZE e.2)
    (hdev : ∀ dev ∈ d.filterMap (restorable UTIL_PATH_SIZE st),
      dev.devnum_major ≠ 0 ∧ dev.devnode ∈ st.nodes)
    (hdistinct : ((d.filterMap (restorable UTIL_PATH_SIZE st)).map
      (fun dev => dev.devnode)).Nodup)
    (htable : (st.watches.map Prod.fst).Nodup)
    (hfitnew : ∀ k : Nat, k < fresh_wd st + d.length →
      fits UTIL_PATH_SIZE udev (sprintf_d (k : Int))) :
    ((udev_watch_restore UTIL_PATH_SIZE udev st).watch.getD []).map Prod.snd
      = (d.filter (fun e => (restorable UTIL_PATH_SIZE st e).isSome)).map Prod.snd := by
  apply restore_targets_core UTIL_PATH_SIZE udev st d hfd hw hold hroot hnames hfitold _ _
    hdistinct htable hfitnew
  · intro e he t ht
    have := htarget e he
    rw [ht] at this
    exact this
  · intro e he dev hr
    exact hdev dev (List.mem_filterMap.mpr ⟨e, he, hr⟩)

/-- C2 at its two examples: `{5 -> /devices/A, 6 -> /devices/B}`, both live,
gives exactly the two targets `/devices/A` and `/devices/B`; and
`{5 -> /devices/A, 7 -> /devices/GONE}` gives exactly the target `/devices/A`. -/
theorem C2_restore_rebuilds_witness :
    ((udev_watch_restore 1024 ex_udev ex_prior).watch.getD []).map Prod.snd
      = [Node.link "/devices/A", Node.link "/devices/B"]
    ∧ ((udev_watch_restore 1024 ex_udev ex_prior_gone).watch.getD []).map Prod.snd
      = [Node.link "/devices/A"] :=
  ⟨(C2_restore_rebuilds 1024 ex_udev ex_prior _ (by decide) rfl (by decide) (by decide) (by decide) (by decide)
      (by decide) (by decide) (by decide) (by decide) (by decide)).trans (by decide),
    (C2_restore_rebuilds 1024 ex_udev ex_prior_gone _ (by decide) rfl (by decide) (by decide) (by decide)
      (by decide) (by decide) (by decide) (by decide) (by decide) (by decide)).trans
      (by decide)⟩

end UdevWatch
